import Mathlib

/-!
# A verification development for murasyp

Shallow embedding of the murasyp library (exact-rational gambles, rays,
cones, desirability models and the CONEstrip linear-programming engine)
together with proofs about the behaviour of its operations.

Conventions of the embedding:

* `murasyp.vectors` (the `Vector`/`Polytope` base classes) and
  `murasyp.massfuncs` (`PMFunc`) are not part of the available sources;
  their behaviour is modelled from the design document (finite stored
  mapping, indexing outside the stored domain reads zero, Gamble-level
  pointwise arithmetic joins domains by union).
* Python `set`/`frozenset` containers are modelled as Lean lists; the
  properties proved below are insensitive to duplication and order.
* The external exact LP solver (`cdd.LinProg`) is modelled as an oracle
  argument; where a property depends on the solver's answers being
  correct, correctness of the consulted answers is an explicit
  hypothesis (`SoundAt` / `CompleteAt`).
* All numbers are exact rationals (`ℚ`), as in the library.
-/

set_option linter.unusedSectionVars false
set_option linter.unusedVariables false

namespace Murasyp

/-- Models a murasyp `Vector` (and its subclasses `Gamble` and `Ray`):
an immutable finite mapping from labels to exact rationals.  `dom` is the
set of labels with a stored entry, `val` the stored values (only its
restriction to `dom` is meaningful; reading happens through `get`). -/
structure Vector (α : Type) where
  dom : Finset α
  val : α → ℚ

variable {α : Type} [DecidableEq α]

/-- Indexing: a stored entry is read back, an absent label reads zero. -/
def Vector.get (g : Vector α) (x : α) : ℚ := if x ∈ g.dom then g.val x else 0

/-- The empty mapping (`Vector({})`). -/
def Vector.empty : Vector α := ⟨∅, fun _ => 0⟩

/-- `support()`: the stored labels with non-zero value. -/
def Vector.support (g : Vector α) : Finset α := g.dom.filter (fun x => g.val x ≠ 0)

/-- Scalar multiplication (over the full stored domain). -/
def Vector.smul (c : ℚ) (g : Vector α) : Vector α := ⟨g.dom, fun x => c * g.val x⟩

/-- Negation, `-g = (-1) * g`. -/
def Vector.neg (g : Vector α) : Vector α := Vector.smul (-1) g

/-- Scalar division (over the full stored domain). -/
def Vector.sdiv (g : Vector α) (c : ℚ) : Vector α := ⟨g.dom, fun x => g.val x / c⟩

/-- Scalar addition, the scalar branch of `Gamble.__add__`: the scalar is
added to every stored entry (the domain is unchanged). -/
def Vector.sadd (g : Vector α) (c : ℚ) : Vector α := ⟨g.dom, fun x => g.val x + c⟩

/-- Pointwise addition of gambles, `Gamble.__add__`/`Vector.__add__` with
the Gamble-level domain joiner: the result's domain is the union of the
two domains and absent entries are treated as zero. -/
def Vector.add (f g : Vector α) : Vector α := ⟨f.dom ∪ g.dom, fun x => f.get x + g.get x⟩

/-- Restriction/extension `g | S` to a given label set: the result stores
exactly the labels of `S`, each with the value `g` reads there. -/
def Vector.restrict (g : Vector α) (S : Finset α) : Vector α := ⟨S, fun x => g.get x⟩

/-- The indicator gamble of a set of labels (`Gamble('abc')`,
`Ray(domain)`-style constructor input). -/
def Gamble.indicator (S : Finset α) : Vector α := ⟨S, fun _ => 1⟩

/-- First component of `Gamble.bounds()`: the minimum stored value
(`0` for the empty gamble). -/
def Vector.minval (g : Vector α) : ℚ :=
  if h : g.dom.Nonempty then g.dom.inf' h g.val else 0

/-- Second component of `Gamble.bounds()`: the maximum stored value
(`0` for the empty gamble). -/
def Vector.maxval (g : Vector α) : ℚ :=
  if h : g.dom.Nonempty then g.dom.sup' h g.val else 0

/-- `Gamble.norm()`: the max-norm `max(-min, max)` of the stored values. -/
def Vector.norm (g : Vector α) : ℚ := max (-(g.minval)) g.maxval

/-- `Gamble.normalized()`: `None` when the norm is zero, otherwise the
gamble divided by its norm. -/
def Vector.normalized (g : Vector α) : Option (Vector α) :=
  if g.norm = 0 then none else some (g.sdiv g.norm)

/-- `Ray.__init__`: normalize the gamble; if normalization yields `None`
(zero norm) the empty ray is built, otherwise the normalized gamble is
restricted to its support. -/
def Ray.ofGamble (g : Vector α) : Vector α :=
  match g.normalized with
  | none => Vector.empty
  | some n => n.restrict n.support

/-- The invariant a murasyp `Ray` object satisfies: its domain coincides
with its support, and it is max-normalized (or it is the empty ray). -/
def IsRay (r : Vector α) : Prop := r.dom = r.support ∧ (r.norm = 1 ∨ r.dom = ∅)

/-! ## Basic lemmas about `Vector` -/

theorem Vector.get_of_mem {g : Vector α} {x : α} (h : x ∈ g.dom) : g.get x = g.val x := by
  simp [Vector.get, h]

theorem Vector.get_of_not_mem {g : Vector α} {x : α} (h : x ∉ g.dom) : g.get x = 0 := by
  simp [Vector.get, h]

theorem Vector.support_subset (g : Vector α) : g.support ⊆ g.dom :=
  Finset.filter_subset _ _

theorem Vector.get_eq_zero_of_not_support {g : Vector α} {x : α}
    (h : x ∉ g.support) : g.get x = 0 := by
  by_cases hd : x ∈ g.dom
  · have : ¬ g.val x ≠ 0 := fun hv => h (Finset.mem_filter.mpr ⟨hd, hv⟩)
    simpa [Vector.get, hd] using not_not.mp this
  · simp [Vector.get, hd]

/-- The norm equals the supremum of the absolute stored values. -/
theorem Vector.norm_eq_sup_abs (g : Vector α) (h : g.dom.Nonempty) :
    g.norm = g.dom.sup' h (fun x => |g.val x|) := by
  unfold Vector.norm Vector.minval Vector.maxval
  rw [dif_pos h, dif_pos h]
  apply le_antisymm
  · apply max_le
    · obtain ⟨x₀, hx₀, hval⟩ := Finset.exists_mem_eq_inf' h g.val
      calc -(g.dom.inf' h g.val) = -(g.val x₀) := by rw [hval]
        _ ≤ |g.val x₀| := neg_le_abs _
        _ ≤ g.dom.sup' h (fun x => |g.val x|) := Finset.le_sup' (fun x => |g.val x|) hx₀
    · apply Finset.sup'_le
      intro x hx
      exact le_trans (le_abs_self _) (Finset.le_sup' (fun x => |g.val x|) hx)
  · apply Finset.sup'_le (f := fun x => |g.val x|)
    intro x hx
    have h1 : g.val x ≤ g.dom.sup' h g.val := Finset.le_sup' _ hx
    have h2 : g.dom.inf' h g.val ≤ g.val x := Finset.inf'_le _ hx
    rw [abs_le']
    constructor
    · exact le_trans h1 (le_max_right _ _)
    · exact le_trans (by linarith) (le_max_left (-(g.dom.inf' h g.val)) (g.dom.sup' h g.val))

theorem Vector.norm_empty_dom {g : Vector α} (h : ¬ g.dom.Nonempty) : g.norm = 0 := by
  unfold Vector.norm Vector.minval Vector.maxval
  rw [dif_neg h, dif_neg h]
  simp

theorem Vector.abs_val_le_norm {g : Vector α} {x : α} (h : x ∈ g.dom) :
    |g.val x| ≤ g.norm := by
  rw [Vector.norm_eq_sup_abs g ⟨x, h⟩]
  exact Finset.le_sup' (fun x => |g.val x|) h

theorem Vector.norm_nonneg (g : Vector α) : 0 ≤ g.norm := by
  by_cases h : g.dom.Nonempty
  · obtain ⟨x, hx⟩ := h
    exact le_trans (abs_nonneg _) (Vector.abs_val_le_norm hx)
  · rw [Vector.norm_empty_dom h]

theorem Vector.abs_get_le_norm (g : Vector α) (x : α) : |g.get x| ≤ g.norm := by
  by_cases h : x ∈ g.dom
  · rw [Vector.get_of_mem h]; exact Vector.abs_val_le_norm h
  · rw [Vector.get_of_not_mem h]; simpa using Vector.norm_nonneg g

theorem Vector.norm_eq_zero_iff (g : Vector α) :
    g.norm = 0 ↔ ∀ x ∈ g.dom, g.val x = 0 := by
  constructor
  · intro h0 x hx
    have h1 := Vector.abs_val_le_norm hx
    rw [h0] at h1
    exact abs_eq_zero.mp (le_antisymm h1 (abs_nonneg _))
  · intro hz
    by_cases h : g.dom.Nonempty
    · rw [Vector.norm_eq_sup_abs g h]
      apply le_antisymm
      · apply Finset.sup'_le
        intro x hx
        rw [hz x hx]; simp
      · obtain ⟨x, hx⟩ := h
        calc (0 : ℚ) ≤ |g.val x| := abs_nonneg _
          _ ≤ _ := Finset.le_sup' (fun x => |g.val x|) hx
    · exact Vector.norm_empty_dom h

theorem Vector.exists_abs_val_eq_norm (g : Vector α) (h : g.dom.Nonempty) :
    ∃ x ∈ g.dom, |g.val x| = g.norm := by
  obtain ⟨x, hx, hval⟩ := Finset.exists_mem_eq_sup' h (fun x => |g.val x|)
  exact ⟨x, hx, by rw [Vector.norm_eq_sup_abs g h, hval]⟩

theorem Vector.dom_nonempty_of_norm_ne_zero {g : Vector α} (h : g.norm ≠ 0) :
    g.dom.Nonempty := by
  by_contra hne
  exact h (Vector.norm_empty_dom hne)

theorem Vector.norm_pos_of_ne_zero {g : Vector α} (h : g.norm ≠ 0) : 0 < g.norm :=
  lt_of_le_of_ne (Vector.norm_nonneg g) (Ne.symm h)

/-! ## Lemmas about `Ray.__init__` -/

theorem Ray.ofGamble_of_norm_eq_zero {g : Vector α} (h : g.norm = 0) :
    Ray.ofGamble g = Vector.empty := by
  unfold Ray.ofGamble Vector.normalized
  rw [if_pos h]

theorem Vector.support_sdiv {g : Vector α} {c : ℚ} (hc : c ≠ 0) :
    (g.sdiv c).support = g.support := by
  unfold Vector.support Vector.sdiv
  apply Finset.filter_congr
  intro x _
  simp [div_eq_zero_iff, hc]

theorem Ray.ofGamble_eq {g : Vector α} (h : g.norm ≠ 0) :
    Ray.ofGamble g = (g.sdiv g.norm).restrict g.support := by
  unfold Ray.ofGamble Vector.normalized
  rw [if_neg h]
  simp [Vector.support_sdiv h]

theorem Ray.ofGamble_dom {g : Vector α} (h : g.norm ≠ 0) :
    (Ray.ofGamble g).dom = g.support := by
  rw [Ray.ofGamble_eq h]
  rfl

theorem Ray.ofGamble_get {g : Vector α} (h : g.norm ≠ 0) (x : α) :
    (Ray.ofGamble g).get x = g.get x / g.norm := by
  rw [Ray.ofGamble_eq h]
  by_cases hs : x ∈ g.support
  · rw [Vector.get_of_mem (g := (g.sdiv g.norm).restrict g.support) hs]
    show (g.sdiv g.norm).get x = _
    have hd : x ∈ g.dom := Vector.support_subset g hs
    rw [Vector.get_of_mem (g := g) hd]
    simp [Vector.get, Vector.sdiv, hd]
  · rw [Vector.get_of_not_mem (g := (g.sdiv g.norm).restrict g.support) hs]
    rw [Vector.get_eq_zero_of_not_support hs]
    simp

theorem Ray.ofGamble_norm {g : Vector α} (h : g.norm ≠ 0) :
    (Ray.ofGamble g).norm = 1 := by
  have hpos : 0 < g.norm := Vector.norm_pos_of_ne_zero h
  obtain ⟨x₀, hx₀, habs⟩ :=
    Vector.exists_abs_val_eq_norm g (Vector.dom_nonempty_of_norm_ne_zero h)
  have hx₀v : g.val x₀ ≠ 0 := by
    intro hz
    rw [hz] at habs
    simp at habs
    exact h habs.symm
  have hx₀s : x₀ ∈ g.support := Finset.mem_filter.mpr ⟨hx₀, hx₀v⟩
  set t := Ray.ofGamble g with ht
  have hdom : t.dom = g.support := Ray.ofGamble_dom h
  have hne : t.dom.Nonempty := by rw [hdom]; exact ⟨x₀, hx₀s⟩
  rw [Vector.norm_eq_sup_abs t hne]
  have hval : ∀ x ∈ t.dom, |t.val x| = |g.val x| / g.norm := by
    intro x hx
    have hx' : x ∈ g.support := by rwa [hdom] at hx
    have : t.val x = g.val x / g.norm := by
      rw [ht, Ray.ofGamble_eq h]
      show (g.sdiv g.norm).get x = _
      simp [Vector.get, Vector.sdiv, Vector.support_subset g hx']
    rw [this, abs_div, abs_of_pos hpos]
  apply le_antisymm
  · apply Finset.sup'_le
    intro x hx
    rw [hval x hx]
    rw [div_le_one hpos]
    exact Vector.abs_val_le_norm (Vector.support_subset g (by rwa [hdom] at hx))
  · have hmem : x₀ ∈ t.dom := by rwa [hdom]
    calc (1 : ℚ) = |g.val x₀| / g.norm := by rw [habs, div_self (ne_of_gt hpos)]
      _ = |t.val x₀| := (hval x₀ hmem).symm
      _ ≤ _ := Finset.le_sup' (fun x => |t.val x|) hmem

theorem Vector.get_smul (c : ℚ) (g : Vector α) (x : α) :
    (Vector.smul c g).get x = c * g.get x := by
  unfold Vector.get Vector.smul
  by_cases h : x ∈ g.dom <;> simp [h]

theorem Vector.get_neg (g : Vector α) (x : α) : g.neg.get x = -(g.get x) := by
  rw [Vector.neg, Vector.get_smul]
  ring

theorem Vector.get_sadd_of_mem {g : Vector α} {x : α} (h : x ∈ g.dom) (c : ℚ) :
    (g.sadd c).get x = g.get x + c := by
  unfold Vector.get Vector.sadd
  simp [h]

theorem Vector.get_add (f g : Vector α) {x : α} (h : x ∈ f.dom ∪ g.dom) :
    (Vector.add f g).get x = f.get x + g.get x :=
  Vector.get_of_mem (g := Vector.add f g) h

/-! ## The `CredalSet` expectation operators -/

/-- Expectation of a gamble under a probability mass function,
`PMFunc.__mul__` (modelled from the spec: `murasyp.massfuncs` is not among
the available sources; the design document defines it as the pointwise
inner product of the mass function with the gamble). -/
def PMFunc.exp (p f : Vector α) : ℚ := (p.dom ∪ f.dom).sum (fun x => p.get x * f.get x)

/-- `CredalSet.__mul__`: the lower expectation of a gamble, the minimum of
the member expectations; on an empty credal set the code raises instead of
returning a number (`raise Error("Empty credal sets have no expectations")`,
which at runtime surfaces as a `NameError` since `Error` is undefined —
either way an exception, modelled as the error branch). -/
def CredalSet.lowerExp (K : List (Vector α)) (f : Vector α) : Except String ℚ :=
  match K with
  | [] => .error "Empty credal sets have no expectations"
  | p :: ps => .ok (ps.foldl (fun acc q => min acc (PMFunc.exp q f)) (PMFunc.exp p f))

/-- `CredalSet.__pow__`: the upper expectation of a gamble, the maximum of
the member expectations; empty credal sets raise as in `CredalSet.lowerExp`. -/
def CredalSet.upperExp (K : List (Vector α)) (f : Vector α) : Except String ℚ :=
  match K with
  | [] => .error "Empty credal sets have no expectations"
  | p :: ps => .ok (ps.foldl (fun acc q => max acc (PMFunc.exp q f)) (PMFunc.exp p f))

/-! ## Claims C3, C6, C7, C10 -/

/-- Claim C3, counterexample.  The claim says constructing a Ray from a
zero-norm Gamble raises a `DomainError`; in the code `Ray.__init__` has no
raising path at all: on the identically-zero gamble `{0: 0}` it produces
the empty ray `Ray({})` (a Ray object of norm 0), exactly as its own
doctest `Ray({'a': 0}) == Ray({})` records. -/
theorem C3_zero_ray_counterexample :
    Ray.ofGamble (⟨{0}, fun _ => 0⟩ : Vector ℕ) = Vector.empty ∧
    (Vector.empty : Vector ℕ).norm = 0 := by
  constructor
  · exact Ray.ofGamble_of_norm_eq_zero
      ((Vector.norm_eq_zero_iff _).mpr (fun x _ => rfl))
  · exact Vector.norm_empty_dom (by simp [Vector.empty])

/-- Claim C3, amended: constructing a Ray from a Gamble whose max-norm is
zero (the identically-zero gamble, including the empty one) produces the
empty Ray `Ray({})` rather than raising a `DomainError`. -/
theorem C3_zero_ray (g : Vector α) (h : g.norm = 0) :
    Ray.ofGamble g = Vector.empty :=
  Ray.ofGamble_of_norm_eq_zero h

/-- Witness for `C3_zero_ray` at the concrete one-entry zero gamble. -/
theorem C3_zero_ray_witness :
    Ray.ofGamble (⟨{1}, fun _ => 0⟩ : Vector ℕ) = Vector.empty :=
  C3_zero_ray _ ((Vector.norm_eq_zero_iff _).mpr (fun x _ => rfl))

/-- Claim C6: for all Gambles `f` and `g`, `f + g` has domain the union of
the two domains, and reads `f[x] + g[x]` at every `x` of that union, with a
label stored in only one of the two contributing its value unchanged (the
absent entry is read as zero through `get`). -/
theorem C6_gamble_add (f g : Vector α) :
    (Vector.add f g).dom = f.dom ∪ g.dom ∧
    ∀ x ∈ f.dom ∪ g.dom, (Vector.add f g).get x = f.get x + g.get x := by
  exact ⟨rfl, fun x hx => Vector.get_add f g hx⟩

/-- A concrete gamble `{0: 2}` used by the examples. -/
def exA : Vector ℕ := ⟨{0}, fun _ => 2⟩

/-- A concrete gamble `{1: 3}` used by the examples. -/
def exB : Vector ℕ := ⟨{1}, fun _ => 3⟩

/-- Witness for `C6_gamble_add` at two concrete one-entry gambles with
disjoint domains. -/
theorem C6_gamble_add_witness :
    (Vector.add exA exB).dom = exA.dom ∪ exB.dom ∧
    ∀ x ∈ exA.dom ∪ exB.dom, (Vector.add exA exB).get x = exA.get x + exB.get x :=
  C6_gamble_add exA exB

/-- Claim C7: both the lower (`K * f`) and the upper (`K ** f`) expectation
of a gamble under the empty credal set raise rather than returning a
numeric value.  (In the code the raised exception is the undefined name
`Error` with message "Empty credal sets have no expectations", surfacing
as a `NameError`; the spec words the message as "no expectation of an
empty credal set" — either way, an error and never a number.) -/
theorem C7_empty_credal_raises (f : Vector α) :
    CredalSet.lowerExp ([] : List (Vector α)) f =
      .error "Empty credal sets have no expectations" ∧
    CredalSet.upperExp ([] : List (Vector α)) f =
      .error "Empty credal sets have no expectations" :=
  ⟨rfl, rfl⟩

/-- Claim C10: for Rays `r` and `s` whose pointwise sum is not identically
zero, `r + s` dispatches through `Gamble.__add__` into the `Ray`
constructor, so the result is again a Ray: max-norm exactly 1, domain equal
to its support, and entries the max-norm-normalized pointwise sum — unlike
scalar multiplication (`2 * r`), which produces the plain unnormalized
Gamble with doubled entries over the same domain. -/
theorem C10_ray_add_normalizes (r s : Vector α) (hr : IsRay r) (hs : IsRay s)
    (h : (Vector.add r s).norm ≠ 0) :
    (Ray.ofGamble (Vector.add r s)).norm = 1 ∧
    (Ray.ofGamble (Vector.add r s)).dom = (Vector.add r s).support ∧
    (∀ x, (Ray.ofGamble (Vector.add r s)).get x =
      (Vector.add r s).get x / (Vector.add r s).norm) ∧
    (Vector.smul 2 r).dom = r.dom ∧
    (∀ x, (Vector.smul 2 r).get x = 2 * r.get x) :=
  ⟨Ray.ofGamble_norm h, Ray.ofGamble_dom h, fun x => Ray.ofGamble_get h x,
    rfl, fun x => Vector.get_smul 2 r x⟩

/-- A concrete ray `{0: 1}` used by the examples. -/
def exRay : Vector ℕ := ⟨{0}, fun _ => 1⟩

theorem Vector.norm_singleton (a : α) (f : α → ℚ) : (⟨{a}, f⟩ : Vector α).norm = |f a| := by
  unfold Vector.norm Vector.minval Vector.maxval
  have hne : ({a} : Finset α).Nonempty := ⟨a, Finset.mem_singleton_self a⟩
  rw [dif_pos hne, dif_pos hne]
  show max (-(({a} : Finset α).inf' hne f)) (({a} : Finset α).sup' hne f) = _
  rw [Finset.inf'_singleton, Finset.sup'_singleton, max_comm, ← abs_eq_max_neg]

theorem exRay_is_ray : IsRay exRay := by
  constructor
  · show ({0} : Finset ℕ) = Finset.filter _ {0}
    simp [exRay, Vector.support]
  · left
    show (⟨{0}, fun _ => 1⟩ : Vector ℕ).norm = 1
    rw [Vector.norm_singleton]
    norm_num

theorem exRay_add_norm_ne : (Vector.add exRay exRay).norm ≠ 0 := by
  intro h0
  have h1 := (Vector.norm_eq_zero_iff _).mp h0 0 (by simp [Vector.add, exRay])
  simp [Vector.add, exRay, Vector.get] at h1

/-- Witness for `C10_ray_add_normalizes` at the concrete ray `{0: 1}`
added to itself. -/
theorem C10_ray_add_normalizes_witness :
    (Ray.ofGamble (Vector.add exRay exRay)).norm = 1 ∧
    (Ray.ofGamble (Vector.add exRay exRay)).dom = (Vector.add exRay exRay).support ∧
    (∀ x, (Ray.ofGamble (Vector.add exRay exRay)).get x =
      (Vector.add exRay exRay).get x / (Vector.add exRay exRay).norm) ∧
    (Vector.smul 2 exRay).dom = exRay.dom ∧
    (∀ x, (Vector.smul 2 exRay).get x = 2 * exRay.get x) :=
  C10_ray_add_normalizes exRay exRay exRay_is_ray exRay_is_ray exRay_add_norm_ne

/-! ## The DesirSet linear programs

A `DesirSet` is a finite set of cones, each cone a finite set of rays; it
is modelled as a list of lists of `Vector`s.  The coherence and
expectation methods of `desirs.py` build exact LPs over one non-negative
multiplier per generator ray (the per-cone indexing in the present source
is a known defect — the methods carry "Currently, this method is broken"
warnings and depend on the absent `murasyp.vectors` `Polytope` base class —
so the LPs are modelled with per-ray multipliers as the design document
specifies). -/

/-- The union of the stored domains of a list of vectors. -/
def domsUnion (L : List (Vector α)) : Finset α :=
  L.foldr (fun v acc => v.dom ∪ acc) ∅

theorem mem_domsUnion {L : List (Vector α)} {x : α} :
    x ∈ domsUnion L ↔ ∃ v ∈ L, x ∈ v.dom := by
  induction L with
  | nil => simp [domsUnion]
  | cons v t ih => simp [domsUnion, List.foldr_cons, Finset.mem_union, ih.symm]

/-- `DesirSet.pspace()`: the union of the domains of all generators of all
cones (for a nonempty DesirSet; the Python call crashes on an empty one). -/
def DesirSet.pspace (D : List (List (Vector α))) : Finset α := domsUnion D.flatten

/-- The value at `x` of the linear combination of the vectors `L` with the
coefficient list `m` (one coefficient per generator, matched positionally). -/
def lincomb (m : List ℚ) (L : List (Vector α)) (x : α) : ℚ :=
  (List.zipWith (fun c v => c * v.get x) m L).sum

theorem lincomb_nil_left (L : List (Vector α)) (x : α) : lincomb [] L x = 0 := by
  simp [lincomb]

theorem lincomb_cons (c : ℚ) (m : List ℚ) (v : Vector α) (L : List (Vector α)) (x : α) :
    lincomb (c :: m) (v :: L) x = c * v.get x + lincomb m L x := by
  simp [lincomb]

/-- Scaling every coefficient scales the combination. -/
theorem lincomb_map_mul (a : ℚ) (m : List ℚ) (L : List (Vector α)) (x : α) :
    lincomb (m.map (fun c => a * c)) L x = a * lincomb m L x := by
  induction m generalizing L with
  | nil => simp [lincomb]
  | cons c t ih =>
    cases L with
    | nil => simp [lincomb]
    | cons v tl =>
      rw [List.map_cons, lincomb_cons, lincomb_cons, ih]
      ring

/-- The feasibility predicate of the sure-loss LP built by
`DesirSet.asl()`: non-negative multipliers, one per generator ray, whose
combination is at most `-1` at every element of the possibility space
(the matrix rows `mu >= 0` and `-1 - sum mu_r r(x) >= 0`, objective
`min 0`). -/
def DesirSet.aslLP (D : List (List (Vector α))) : Prop :=
  ∃ μ : List ℚ, μ.length = D.flatten.length ∧ (∀ c ∈ μ, 0 ≤ c) ∧
    ∀ x ∈ DesirSet.pspace D, lincomb μ D.flatten x ≤ -1

/-- `DesirSet.asl()`: the feasibility-only LP is handed to the exact
solver and `lp.status != OPTIMAL` is returned; under the solver contract a
zero-objective LP is `OPTIMAL` exactly when it is feasible, so the method
returns whether the LP is infeasible. -/
def DesirSet.asl (D : List (List (Vector α))) : Prop := ¬ DesirSet.aslLP D

/-- The spec-side characterization of sure loss: some explicit
non-negative combination of the generators is everywhere negative on the
possibility space. -/
def sureLossCombo (D : List (List (Vector α))) : Prop :=
  ∃ μ : List ℚ, μ.length = D.flatten.length ∧ (∀ c ∈ μ, 0 ≤ c) ∧
    ∀ x ∈ DesirSet.pspace D, lincomb μ D.flatten x < 0

/-- Claim C2: `DesirSet.asl()` returns true iff the sure-loss LP it builds
(non-negativity of each generator multiplier, combination at most `-1` at
every possibility-space element, objective minimize 0) is infeasible, and
false iff a witness combination exists — i.e. a non-negative combination
of generators that is everywhere negative; the `-1` normalization loses no
witnesses because an everywhere-negative combination can be rescaled. -/
theorem C2_asl_iff_no_sure_loss (D : List (List (Vector α))) :
    DesirSet.asl D ↔ ¬ sureLossCombo D := by
  unfold DesirSet.asl
  apply not_congr
  constructor
  · rintro ⟨μ, hlen, hnn, hle⟩
    exact ⟨μ, hlen, hnn, fun x hx => lt_of_le_of_lt (hle x hx) (by norm_num)⟩
  · rintro ⟨μ, hlen, hnn, hlt⟩
    by_cases hP : (DesirSet.pspace D).Nonempty
    · set M := (DesirSet.pspace D).sup' hP (lincomb μ D.flatten) with hM
      have hMlt : M < 0 := by
        rw [hM, Finset.sup'_lt_iff]
        exact fun x hx => hlt x hx
      have hMne : -M > 0 := by linarith
      refine ⟨μ.map (fun c => (-M)⁻¹ * c), by simp [hlen], ?_, ?_⟩
      · intro c hc
        obtain ⟨c₀, hc₀, rfl⟩ := List.mem_map.mp hc
        exact mul_nonneg (le_of_lt (inv_pos.mpr hMne)) (hnn c₀ hc₀)
      · intro x hx
        rw [lincomb_map_mul]
        have h1 : lincomb μ D.flatten x ≤ M := Finset.le_sup' (lincomb μ D.flatten) hx
        have h2 : (-M)⁻¹ * lincomb μ D.flatten x ≤ (-M)⁻¹ * M :=
          mul_le_mul_of_nonneg_left h1 (le_of_lt (inv_pos.mpr hMne))
        have h3 : (-M)⁻¹ * M = -1 := by
          field_simp
        linarith
    · exact ⟨μ, hlen, hnn, fun x hx => absurd ⟨x, hx⟩ hP⟩

/-! ## `set_pr` and the lower/upper-expectation LP -/

/-- The two-ray cone added by `DesirSet.set_lower_pr(g, w)`: the ray of
`g - w` and the ray of the indicator of `g`'s domain (the conditioning
event). -/
def DesirSet.set_lower_pr_cone (g : Vector α) (w : ℚ) : List (Vector α) :=
  [Ray.ofGamble (g.sadd (-w)), Ray.ofGamble (Gamble.indicator g.dom)]

/-- The DesirSet produced by `D = DesirSet(); D.set_pr(f, v)`:
`set_lower_pr(f, v)` followed by `set_upper_pr(f, v)`, the latter being
`set_lower_pr(-f, -v)`. -/
def DesirSet.set_pr (f : Vector α) (v : ℚ) : List (List (Vector α)) :=
  [DesirSet.set_lower_pr_cone f v, DesirSet.set_lower_pr_cone f.neg (-v)]

/-- Feasibility of value `t` for the lower-expectation LP built by
`DesirSet.__mul__(D, f)`: there are non-negative multipliers, one per
generator ray across the cones, with
`f(x) - t*[x in dom f] - sum mu_r r(x) >= 0` at every element of the
possibility space (matrix rows `mu >= 0` and
`f[x] - t*int(x in dom) - sum mu_r r[x] >= 0`, objective `max t`; the
method returns the optimal `t` when the solver reports `OPTIMAL` and
raises otherwise). -/
def DesirSet.lexpFeasible (D : List (List (Vector α))) (f : Vector α) (t : ℚ) : Prop :=
  ∃ μ : List ℚ, μ.length = D.flatten.length ∧ (∀ c ∈ μ, 0 ≤ c) ∧
    ∀ x ∈ DesirSet.pspace D,
      0 ≤ f.get x - t * (if x ∈ f.dom then 1 else 0) - lincomb μ D.flatten x

theorem Ray.ofGamble_dom_subset (g : Vector α) : (Ray.ofGamble g).dom ⊆ g.dom := by
  by_cases h : g.norm = 0
  · rw [Ray.ofGamble_of_norm_eq_zero h]
    intro x hx
    simp [Vector.empty] at hx
  · rw [Ray.ofGamble_dom h]
    exact Vector.support_subset g

theorem Vector.norm_indicator {S : Finset α} (h : S.Nonempty) :
    (Gamble.indicator S).norm = 1 := by
  rw [Vector.norm_eq_sup_abs _ h]
  show S.sup' h (fun x => |(1 : ℚ)|) = 1
  simp

theorem indicator_ray_get {S : Finset α} (h : S.Nonempty) (x : α) :
    (Ray.ofGamble (Gamble.indicator S)).get x = if x ∈ S then 1 else 0 := by
  have h1 : (Gamble.indicator S).norm ≠ 0 := by rw [Vector.norm_indicator h]; norm_num
  rw [Ray.ofGamble_get h1, Vector.norm_indicator h]
  show (Gamble.indicator S).get x / 1 = _
  rw [div_one]
  unfold Vector.get Gamble.indicator
  rfl

theorem indicator_ray_dom {S : Finset α} (h : S.Nonempty) :
    (Ray.ofGamble (Gamble.indicator S)).dom = S := by
  have h1 : (Gamble.indicator S).norm ≠ 0 := by rw [Vector.norm_indicator h]; norm_num
  rw [Ray.ofGamble_dom h1]
  unfold Vector.support Gamble.indicator
  exact Finset.filter_true_of_mem (fun x _ => one_ne_zero)

theorem sadd_ray_get {g : Vector α} {w : ℚ} (hc : (g.sadd (-w)).norm ≠ 0)
    {x : α} (hx : x ∈ g.dom) :
    (Ray.ofGamble (g.sadd (-w))).get x = (g.get x + -w) / (g.sadd (-w)).norm := by
  rw [Ray.ofGamble_get hc, Vector.get_sadd_of_mem hx]

/-- The prevision cone's norm vanishes exactly when the gamble is the
constant `w` on its domain. -/
theorem sadd_norm_zero_iff (g : Vector α) (w : ℚ) :
    (g.sadd (-w)).norm = 0 ↔ ∀ x ∈ g.dom, g.val x = w := by
  rw [Vector.norm_eq_zero_iff]
  constructor
  · intro h x hx
    have := h x hx
    show _ = w
    have h2 : g.val x + -w = 0 := this
    linarith
  · intro h x hx
    show g.val x + -w = 0
    have := h x hx
    linarith

theorem sadd_neg_norm_zero (f : Vector α) (v : ℚ)
    (h : (f.sadd (-v)).norm = 0) : (f.neg.sadd v).norm = 0 := by
  rw [sadd_norm_zero_iff f v] at h
  rw [show (v : ℚ) = -(-v) by ring, sadd_norm_zero_iff]
  intro x hx
  show -1 * f.val x = -v
  have := h x hx
  linarith

/-- The four generators of the two cones added by `set_pr`. -/
theorem set_pr_flatten (f : Vector α) (v : ℚ) :
    (DesirSet.set_pr f v).flatten =
      [Ray.ofGamble (f.sadd (-v)), Ray.ofGamble (Gamble.indicator f.dom),
       Ray.ofGamble (f.neg.sadd (-(-v))), Ray.ofGamble (Gamble.indicator f.neg.dom)] := rfl

theorem pspace_set_pr (f : Vector α) (v : ℚ) (h : f.dom.Nonempty) :
    DesirSet.pspace (DesirSet.set_pr f v) = f.dom := by
  apply Finset.ext
  intro x
  rw [DesirSet.pspace, mem_domsUnion]
  constructor
  · rintro ⟨r, hr, hx⟩
    rw [set_pr_flatten] at hr
    simp only [List.mem_cons, List.not_mem_nil, or_false] at hr
    rcases hr with rfl | rfl | rfl | rfl
    · exact Ray.ofGamble_dom_subset (f.sadd (-v)) hx
    · rwa [indicator_ray_dom (S := f.dom) h] at hx
    · exact Ray.ofGamble_dom_subset (f.neg.sadd (-(-v))) hx
    · rwa [indicator_ray_dom (S := f.neg.dom) h] at hx
  · intro hx
    refine ⟨Ray.ofGamble (Gamble.indicator f.dom), ?_, ?_⟩
    · rw [set_pr_flatten]
      exact List.mem_cons_of_mem _ (List.mem_cons_self _ _)
    · rw [indicator_ray_dom (S := f.dom) h]
      exact hx

/-- The upper-bound step shared by the two halves of C1: if on a nonempty
domain with `min f <= v <= max f` some slope `s` satisfies
`u + γ <= s * (f(x) - v)` everywhere, then `u <= 0`. -/
theorem ub_aux (f : Vector α) (v u γ s : ℚ) (hγ : 0 ≤ γ) (hne : f.dom.Nonempty)
    (hmin : f.minval ≤ v) (hmax : v ≤ f.maxval)
    (hc : ∀ x ∈ f.dom, u + γ ≤ s * (f.get x - v)) : u ≤ 0 := by
  have hminval : ∃ x ∈ f.dom, f.val x = f.minval := by
    obtain ⟨x, hx, hv⟩ := Finset.exists_mem_eq_inf' hne f.val
    refine ⟨x, hx, ?_⟩
    rw [Vector.minval, dif_pos hne, ← hv]
  have hmaxval : ∃ x ∈ f.dom, f.val x = f.maxval := by
    obtain ⟨x, hx, hv⟩ := Finset.exists_mem_eq_sup' hne f.val
    refine ⟨x, hx, ?_⟩
    rw [Vector.maxval, dif_pos hne, ← hv]
  by_cases hs : 0 ≤ s
  · obtain ⟨x₁, hx₁, hv₁⟩ := hminval
    have h1 := hc x₁ hx₁
    rw [Vector.get_of_mem hx₁, hv₁] at h1
    have h2 : s * (f.minval - v) ≤ s * 0 :=
      mul_le_mul_of_nonneg_left (by linarith) hs
    rw [mul_zero] at h2
    linarith
  · obtain ⟨x₂, hx₂, hv₂⟩ := hmaxval
    have h1 := hc x₂ hx₂
    rw [Vector.get_of_mem hx₂, hv₂] at h1
    have h2 : s * (f.maxval - v) ≤ 0 :=
      mul_nonpos_of_nonpos_of_nonneg (le_of_not_le hs) (by linarith)
    linarith

theorem neg_sadd_norm_zero_iff (f : Vector α) (v : ℚ) :
    (f.neg.sadd v).norm = 0 ↔ (f.sadd (-v)).norm = 0 := by
  rw [Vector.norm_eq_zero_iff, Vector.norm_eq_zero_iff]
  constructor <;> intro h x hx
  · have h2 : -1 * f.val x + v = 0 := h x hx
    show f.val x + -v = 0
    linarith
  · have h2 : f.val x + -v = 0 := h x hx
    show -1 * f.val x + v = 0
    linarith

theorem list_len4 {μ : List ℚ} (h : μ.length = 4) : ∃ a b c d, μ = [a, b, c, d] := by
  rcases μ with _ | ⟨a, μ⟩; · simp at h
  rcases μ with _ | ⟨b, μ⟩; · simp at h
  rcases μ with _ | ⟨c, μ⟩; · simp at h
  rcases μ with _ | ⟨d, μ⟩; · simp at h
  rcases μ with _ | ⟨e, μ⟩
  · exact ⟨a, b, c, d, rfl⟩
  · simp at h

theorem lincomb_four (a b c d : ℚ) (r1 r2 r3 r4 : Vector α) (x : α) :
    lincomb [a, b, c, d] [r1, r2, r3, r4] x =
      a * r1.get x + b * r2.get x + c * r3.get x + d * r4.get x := by
  simp [lincomb]
  ring

/-- After `set_pr(f, v)` on a fresh DesirSet, `v` is the optimum of the
lower-expectation LP for `f` (provided the prevision is within the
gamble's bounds). -/
theorem set_pr_lower (f : Vector α) (v : ℚ) (hne : f.dom.Nonempty)
    (hmin : f.minval ≤ v) (hmax : v ≤ f.maxval) :
    IsGreatest {t | DesirSet.lexpFeasible (DesirSet.set_pr f v) f t} v := by
  have hps := pspace_set_pr f v hne
  constructor
  · by_cases hc : (f.sadd (-v)).norm = 0
    · refine ⟨[0, 0, 0, 0], by simp [set_pr_flatten], ?_, ?_⟩
      · intro m hm
        simp at hm
        simp [hm]
      · intro x hx
        rw [hps] at hx
        rw [set_pr_flatten, lincomb_four, if_pos hx, Vector.get_of_mem hx,
          (sadd_norm_zero_iff f v).mp hc x hx]
        simp
    · refine ⟨[(f.sadd (-v)).norm, 0, 0, 0], by simp [set_pr_flatten], ?_, ?_⟩
      · intro m hm
        simp at hm
        rcases hm with rfl | rfl
        · exact Vector.norm_nonneg _
        · norm_num
      · intro x hx
        rw [hps] at hx
        rw [set_pr_flatten, lincomb_four, if_pos hx, sadd_ray_get hc hx]
        have hcc : (f.sadd (-v)).norm * ((f.get x + -v) / (f.sadd (-v)).norm) =
            f.get x + -v := by
          field_simp
        rw [hcc]
        simp
  · rintro t ⟨μ, hlen, hnn, hcon⟩
    rw [set_pr_flatten] at hlen
    obtain ⟨a, g1, b, g2, rfl⟩ := list_len4 (by simpa using hlen)
    have ha : 0 ≤ a := hnn a (by simp)
    have hg1 : 0 ≤ g1 := hnn g1 (by simp)
    have hb : 0 ≤ b := hnn b (by simp)
    have hg2 : 0 ≤ g2 := hnn g2 (by simp)
    by_cases hc : (f.sadd (-v)).norm = 0
    · have hc2 : (f.neg.sadd v).norm = 0 := (neg_sadd_norm_zero_iff f v).mpr hc
      obtain ⟨x₀, hx₀⟩ := id hne
      have h1 := hcon x₀ (by rw [hps]; exact hx₀)
      rw [set_pr_flatten, lincomb_four, if_pos hx₀] at h1
      rw [neg_neg] at h1
      rw [Ray.ofGamble_of_norm_eq_zero hc, Ray.ofGamble_of_norm_eq_zero hc2] at h1
      have hev : (Vector.empty : Vector α).get x₀ = 0 := by
        simp [Vector.empty, Vector.get]
      rw [hev] at h1
      rw [indicator_ray_get (S := f.dom) hne x₀, if_pos hx₀] at h1
      rw [indicator_ray_get (S := f.neg.dom) hne x₀,
        if_pos (show x₀ ∈ f.neg.dom from hx₀)] at h1
      rw [Vector.get_of_mem hx₀, (sadd_norm_zero_iff f v).mp hc x₀ hx₀] at h1
      linarith
    · have hc2 : (f.neg.sadd v).norm ≠ 0 := fun h0 =>
        hc ((neg_sadd_norm_zero_iff f v).mp h0)
      have hcon' : ∀ x ∈ f.dom, (t - v) + (g1 + g2) ≤
          (1 - a / (f.sadd (-v)).norm + b / (f.neg.sadd v).norm) * (f.get x - v) := by
        intro x hx
        have h1 := hcon x (by rw [hps]; exact hx)
        rw [set_pr_flatten, lincomb_four, if_pos hx] at h1
        rw [sadd_ray_get hc hx] at h1
        have hc2' : (f.neg.sadd (-(-v))).norm ≠ 0 := by rw [neg_neg]; exact hc2
        rw [sadd_ray_get (g := f.neg) (w := -v) hc2' (show x ∈ f.neg.dom from hx)] at h1
        rw [indicator_ray_get (S := f.dom) hne x, if_pos hx] at h1
        rw [indicator_ray_get (S := f.neg.dom) hne x,
          if_pos (show x ∈ f.neg.dom from hx)] at h1
        rw [Vector.get_neg, neg_neg] at h1
        have hid : (1 - a / (f.sadd (-v)).norm + b / (f.neg.sadd v).norm) *
              (f.get x - v) - ((t - v) + (g1 + g2)) =
            f.get x - t * 1 - (a * ((f.get x + -v) / (f.sadd (-v)).norm) + g1 * 1 +
              b * ((-(f.get x) + v) / (f.neg.sadd v).norm) + g2 * 1) := by
          ring
        linarith
      have := ub_aux f v (t - v) (g1 + g2) _ (by linarith) hne hmin hmax hcon'
      linarith

/-- After `set_pr(f, v)` on a fresh DesirSet, `-v` is the optimum of the
lower-expectation LP for `-f`; by `DesirSet.__pow__`, the upper expectation
`D ** f = -(D * (-f))` therefore returns `v`. -/
theorem set_pr_upper (f : Vector α) (v : ℚ) (hne : f.dom.Nonempty)
    (hmin : f.minval ≤ v) (hmax : v ≤ f.maxval) :
    IsGreatest {t | DesirSet.lexpFeasible (DesirSet.set_pr f v) f.neg t} (-v) := by
  have hps := pspace_set_pr f v hne
  constructor
  · by_cases hc : (f.sadd (-v)).norm = 0
    · refine ⟨[0, 0, 0, 0], by simp [set_pr_flatten], ?_, ?_⟩
      · intro m hm
        simp at hm
        simp [hm]
      · intro x hx
        rw [hps] at hx
        rw [set_pr_flatten, lincomb_four, if_pos (show x ∈ f.neg.dom from hx)]
        rw [Vector.get_neg, Vector.get_of_mem hx, (sadd_norm_zero_iff f v).mp hc x hx]
        simp
    · have hc2' : (f.neg.sadd (-(-v))).norm ≠ 0 := by
        rw [neg_neg]
        exact fun h0 => hc ((neg_sadd_norm_zero_iff f v).mp h0)
      refine ⟨[0, 0, (f.neg.sadd (-(-v))).norm, 0], by simp [set_pr_flatten], ?_, ?_⟩
      · intro m hm
        simp at hm
        rcases hm with h | h | h
        all_goals rw [h]
        all_goals try exact Vector.norm_nonneg _
      · intro x hx
        rw [hps] at hx
        rw [set_pr_flatten, lincomb_four, if_pos (show x ∈ f.neg.dom from hx)]
        rw [sadd_ray_get (g := f.neg) (w := -v) hc2' (show x ∈ f.neg.dom from hx)]
        have hcc : (f.neg.sadd (-(-v))).norm *
            ((f.neg.get x + -(-v)) / (f.neg.sadd (-(-v))).norm) =
            f.neg.get x + -(-v) := by
          rw [mul_comm]
          exact div_mul_cancel₀ _ hc2'
        rw [hcc]
        simp
  · rintro t ⟨μ, hlen, hnn, hcon⟩
    rw [set_pr_flatten] at hlen
    obtain ⟨a, g1, b, g2, rfl⟩ := list_len4 (by simpa using hlen)
    have ha : 0 ≤ a := hnn a (by simp)
    have hg1 : 0 ≤ g1 := hnn g1 (by simp)
    have hb : 0 ≤ b := hnn b (by simp)
    have hg2 : 0 ≤ g2 := hnn g2 (by simp)
    by_cases hc : (f.sadd (-v)).norm = 0
    · have hc2 : (f.neg.sadd v).norm = 0 := (neg_sadd_norm_zero_iff f v).mpr hc
      obtain ⟨x₀, hx₀⟩ := id hne
      have h1 := hcon x₀ (by rw [hps]; exact hx₀)
      rw [set_pr_flatten, lincomb_four, if_pos (show x₀ ∈ f.neg.dom from hx₀)] at h1
      rw [neg_neg] at h1
      rw [Ray.ofGamble_of_norm_eq_zero hc, Ray.ofGamble_of_norm_eq_zero hc2] at h1
      have hev : (Vector.empty : Vector α).get x₀ = 0 := by
        simp [Vector.empty, Vector.get]
      rw [hev] at h1
      rw [indicator_ray_get (S := f.dom) hne x₀, if_pos hx₀] at h1
      rw [indicator_ray_get (S := f.neg.dom) hne x₀,
        if_pos (show x₀ ∈ f.neg.dom from hx₀)] at h1
      rw [Vector.get_neg, Vector.get_of_mem hx₀,
        (sadd_norm_zero_iff f v).mp hc x₀ hx₀] at h1
      linarith
    · have hc2 : (f.neg.sadd v).norm ≠ 0 := fun h0 =>
        hc ((neg_sadd_norm_zero_iff f v).mp h0)
      have hcon' : ∀ x ∈ f.dom, (t + v) + (g1 + g2) ≤
          (-1 - a / (f.sadd (-v)).norm + b / (f.neg.sadd v).norm) * (f.get x - v) := by
        intro x hx
        have h1 := hcon x (by rw [hps]; exact hx)
        rw [set_pr_flatten, lincomb_four, if_pos (show x ∈ f.neg.dom from hx)] at h1
        rw [sadd_ray_get hc hx] at h1
        have hc2' : (f.neg.sadd (-(-v))).norm ≠ 0 := by rw [neg_neg]; exact hc2
        rw [sadd_ray_get (g := f.neg) (w := -v) hc2' (show x ∈ f.neg.dom from hx)] at h1
        rw [indicator_ray_get (S := f.dom) hne x, if_pos hx] at h1
        rw [indicator_ray_get (S := f.neg.dom) hne x,
          if_pos (show x ∈ f.neg.dom from hx)] at h1
        rw [Vector.get_neg, neg_neg] at h1
        have hid : (-1 - a / (f.sadd (-v)).norm + b / (f.neg.sadd v).norm) *
              (f.get x - v) - ((t + v) + (g1 + g2)) =
            -(f.get x) - t * 1 - (a * ((f.get x + -v) / (f.sadd (-v)).norm) + g1 * 1 +
              b * ((-(f.get x) + v) / (f.neg.sadd v).norm) + g2 * 1) := by
          ring
        linarith
      have := ub_aux f v (t + v) (g1 + g2) _ (by linarith) hne hmin hmax hcon'
      linarith

/-- Claim C1, counterexample.  With `f = {0: 1}` (so `max f = 1`) and the
out-of-bounds prevision `v = 2`, the lower-expectation LP built after
`set_pr(f, 2)` admits the feasible value `t = 10 > 2` (indeed it is
unbounded), so `D * f` does not return `2`: the claim fails as universally
stated over all gambles and rational values. -/
theorem C1_set_pr_roundtrip_counterexample :
    DesirSet.lexpFeasible
      (DesirSet.set_pr (⟨{0}, fun _ => 1⟩ : Vector ℕ) 2) (⟨{0}, fun _ => 1⟩ : Vector ℕ) 10 ∧
    ¬ IsGreatest
      {t | DesirSet.lexpFeasible
        (DesirSet.set_pr (⟨{0}, fun _ => 1⟩ : Vector ℕ) 2) (⟨{0}, fun _ => 1⟩ : Vector ℕ) t} 2 := by
  have hne : (⟨{0}, fun _ => 1⟩ : Vector ℕ).dom.Nonempty := ⟨0, by simp⟩
  have hps := pspace_set_pr (⟨{0}, fun _ => 1⟩ : Vector ℕ) 2 hne
  have hcnorm : ((⟨{0}, fun _ => 1⟩ : Vector ℕ).sadd (-2)).norm = 1 := by
    have : ((⟨{0}, fun _ => 1⟩ : Vector ℕ).sadd (-2)) =
        (⟨{0}, fun x => (⟨{0}, fun _ => 1⟩ : Vector ℕ).val x + -2⟩ : Vector ℕ) := rfl
    rw [this, Vector.norm_singleton]
    norm_num
  have hfeas : DesirSet.lexpFeasible
      (DesirSet.set_pr (⟨{0}, fun _ => 1⟩ : Vector ℕ) 2) (⟨{0}, fun _ => 1⟩ : Vector ℕ) 10 := by
    refine ⟨[9, 0, 0, 0], by simp [set_pr_flatten], ?_, ?_⟩
    · intro m hm
      simp at hm
      rcases hm with rfl | rfl <;> norm_num
    · intro x hx
      rw [hps] at hx
      have hx0 : x = 0 := by simpa using hx
      subst hx0
      rw [set_pr_flatten, lincomb_four, if_pos (by simp : (0 : ℕ) ∈ ({0} : Finset ℕ))]
      rw [sadd_ray_get (by rw [hcnorm]; norm_num) (by simp : (0 : ℕ) ∈ ({0} : Finset ℕ))]
      rw [hcnorm]
      have hget : (⟨{0}, fun _ => 1⟩ : Vector ℕ).get 0 = 1 := by
        simp [Vector.get]
      rw [hget]
      have hind : (Ray.ofGamble (Gamble.indicator
          (⟨{0}, fun _ => 1⟩ : Vector ℕ).dom)).get 0 = 1 := by
        rw [indicator_ray_get (S := (⟨{0}, fun _ => 1⟩ : Vector ℕ).dom)
          ⟨0, by simp⟩ 0]
        simp
      rw [hind]
      have hr3 : (Ray.ofGamble ((⟨{0}, fun _ => 1⟩ : Vector ℕ).neg.sadd (-(-2)))).get 0 =
          1 := by
        have hn3 : ((⟨{0}, fun _ => 1⟩ : Vector ℕ).neg.sadd (-(-2))).norm = 1 := by
          have : ((⟨{0}, fun _ => 1⟩ : Vector ℕ).neg.sadd (-(-2))) =
              (⟨{0}, fun x => -1 * (⟨{0}, fun _ => 1⟩ : Vector ℕ).val x + -(-2)⟩ :
                Vector ℕ) := rfl
          rw [this, Vector.norm_singleton]
          norm_num
        rw [sadd_ray_get (g := (⟨{0}, fun _ => 1⟩ : Vector ℕ).neg) (w := -2)
          (by rw [hn3]; norm_num) (by simp : (0 : ℕ) ∈ ({0} : Finset ℕ))]
        rw [hn3, Vector.get_neg, hget]
        norm_num
      rw [hr3]
      have hind2 : (Ray.ofGamble (Gamble.indicator
          (⟨{0}, fun _ => 1⟩ : Vector ℕ).neg.dom)).get 0 = 1 := by
        have hm0 : (0 : ℕ) ∈ (⟨{0}, fun _ => 1⟩ : Vector ℕ).neg.dom := by
          show (0 : ℕ) ∈ ({0} : Finset ℕ)
          simp
        rw [indicator_ray_get (S := (⟨{0}, fun _ => 1⟩ : Vector ℕ).neg.dom)
          ⟨0, hm0⟩ 0]
        rw [if_pos hm0]
      rw [hind2]
      norm_num
  refine ⟨hfeas, ?_⟩
  rintro ⟨hmem, hub⟩
  have := hub hfeas
  norm_num at this

/-- Claim C1, amended: for a DesirSet built by `set_pr(f, v)` on a fresh
(empty) DesirSet, with `f` of nonempty domain and the prevision within the
gamble's bounds (`min f <= v <= max f`), the lower-expectation LP of `f`
has optimum exactly `v` and the lower-expectation LP of `-f` has optimum
exactly `-v`; since `DesirSet.__pow__` computes `D ** f = -(D * (-f))`,
both `D * f` and `D ** f` return exactly `v`.  (As stated over every
DesirSet, gamble and rational the claim fails, see the counterexample: for
`v` outside the bounds the LP is unbounded and the operators raise.) -/
theorem C1_set_pr_roundtrip (f : Vector α) (v : ℚ) (hne : f.dom.Nonempty)
    (hmin : f.minval ≤ v) (hmax : v ≤ f.maxval) :
    IsGreatest {t | DesirSet.lexpFeasible (DesirSet.set_pr f v) f t} v ∧
    IsGreatest {t | DesirSet.lexpFeasible (DesirSet.set_pr f v) f.neg t} (-v) :=
  ⟨set_pr_lower f v hne hmin hmax, set_pr_upper f v hne hmin hmax⟩

/-- Witness for `C1_set_pr_roundtrip` at the concrete gamble `{0: 1}` with
prevision `1`. -/
theorem C1_set_pr_roundtrip_witness :
    IsGreatest {t | DesirSet.lexpFeasible
      (DesirSet.set_pr (⟨{0}, fun _ => 1⟩ : Vector ℕ) 1) (⟨{0}, fun _ => 1⟩ : Vector ℕ) t} 1 ∧
    IsGreatest {t | DesirSet.lexpFeasible
      (DesirSet.set_pr (⟨{0}, fun _ => 1⟩ : Vector ℕ) 1)
      (⟨{0}, fun _ => 1⟩ : Vector ℕ).neg t} (-1) :=
  C1_set_pr_roundtrip (⟨{0}, fun _ => 1⟩ : Vector ℕ) 1 ⟨0, by simp⟩
    (by rw [Vector.minval, dif_pos ⟨0, by simp⟩]; simp)
    (by rw [Vector.maxval, dif_pos ⟨0, by simp⟩]; simp)

/-! ## `DesirSet.apl()` -/

/-- The four ways a run of `DesirSet.apl()` can end: return `True`
(no truthy `tau`), return `False` (all `tau` truthy), fall out of the
`while` loop with an emptied candidate set (the method returns `None`),
or raise `ValueError` on a non-OPTIMAL solver status. -/
inductive AplOutcome where
  | yes
  | no
  | fellThrough
  | solverFailure

/-- The `apl()` fixpoint loop, counted in loop passes (`fuel`).  The LP of
each iteration is abstracted by `oracle`: for the current candidate set
`A` it either fails (non-OPTIMAL status, `none`) or returns the `tau`
block of the primal solution, one value per element of `A` (the
multipliers of the vacuous cones `DesirSet(A)`).  Following the source:
`if not any(tau): return True`; `elif all(tau): return False`; otherwise
`A` shrinks to the support of the combination of the indicator rays whose
`tau == 1`, i.e. the elements of `A` with `tau` exactly 1.  A fuel of `0`
yields `none` (the loop has not ended yet). -/
def DesirSet.aplRun (oracle : Finset α → Option (α → ℚ)) :
    ℕ → Finset α → Option AplOutcome
  | 0, _ => none
  | n + 1, A =>
    if A = ∅ then some .fellThrough
    else
      match oracle A with
      | none => some .solverFailure
      | some τ =>
        if ∀ x ∈ A, τ x = 0 then some .yes
        else if ∀ x ∈ A, τ x ≠ 0 then some .no
        else DesirSet.aplRun oracle n (A.filter (fun x => τ x = 1))

theorem aplRun_isSome (oracle : Finset α → Option (α → ℚ)) :
    ∀ (n : ℕ) (A : Finset α), A.card < n →
      (DesirSet.aplRun oracle n A).isSome := by
  intro n
  induction n with
  | zero => intro A h; omega
  | succ n ih =>
    intro A h
    rw [DesirSet.aplRun]
    by_cases hA : A = ∅
    · simp [hA]
    · rw [if_neg hA]
      rcases horacle : oracle A with _ | τ
      · rfl
      · show (if ∀ x ∈ A, τ x = 0 then some AplOutcome.yes
            else if ∀ x ∈ A, τ x ≠ 0 then some AplOutcome.no
            else DesirSet.aplRun oracle n
              (A.filter (fun x => τ x = 1))).isSome = true
        by_cases h0 : ∀ x ∈ A, τ x = 0
        · rw [if_pos h0]
          rfl
        · rw [if_neg h0]
          by_cases h1 : ∀ x ∈ A, τ x ≠ 0
          · rw [if_pos h1]
            rfl
          · rw [if_neg h1]
            apply ih
            push_neg at h1
            obtain ⟨x, hx, hx0⟩ := h1
            have hsub : A.filter (fun x => τ x = 1) ⊂ A := by
              refine Finset.ssubset_iff_of_subset (Finset.filter_subset _ _) |>.mpr ?_
              refine ⟨x, hx, ?_⟩
              intro hmem
              have := (Finset.mem_filter.mp hmem).2
              rw [hx0] at this
              norm_num at this
            have := Finset.card_lt_card hsub
            omega

/-- Claim C5: for every DesirSet, `apl()` terminates: writing `fuel` for
the number of passes through the loop head, a run starting from the full
possibility space ends (with `True`, `False`, `None` or the solver-status
`ValueError`) within `|pspace| + 1` passes, i.e. after at most `|pspace|`
LP solves, because each pass either returns or strictly shrinks the
candidate set `A` (some `tau` entry is falsy, and only elements with
`tau == 1` survive), and the loop exits once `A` is empty.  This holds for
every solver behaviour. -/
theorem C5_apl_terminates (oracle : Finset α → Option (α → ℚ))
    (D : List (List (Vector α))) :
    (DesirSet.aplRun oracle ((DesirSet.pspace D).card + 1)
      (DesirSet.pspace D)).isSome :=
  aplRun_isSome oracle _ _ (Nat.lt_succ_self _)

/-! ## The CONEstrip engine (`mathprog.feasible`) -/

/-- The answer of the exact LP solver for one CONEstrip iteration on the
cone collection `E`: a non-OPTIMAL status, or the `mu` block (grouped by
cone, one multiplier per generator) and `tau` block (one per cone) of the
primal solution.  Per the solver contract (spec section 6) the solution
has one rational per declared variable; the constructor's shape proofs
record exactly that. -/
inductive FeasRes {α : Type} (E : List (List (Vector α))) where
  | nonOpt : FeasRes E
  | opt (μ : List (List ℚ)) (τ : List ℚ)
      (hμ : List.Forall₂ (fun m A => m.length = A.length) μ E)
      (hτ : τ.length = E.length) : FeasRes E

/-- `E = [E[n] for n in range(0, k) if tau[n] == 1]`. -/
def select (E : List (List (Vector α))) (τ : List ℚ) : List (List (Vector α)) :=
  (E.zip τ).filterMap (fun p => if p.2 = 1 then some p.1 else none)

/-- `all(all(mu[n][m] == 0 for m in ...) for n in ... if tau[n] == 0)`. -/
def zeroMuOkP (μ : List (List ℚ)) (τ : List ℚ) : Prop :=
  ∀ p ∈ μ.zip τ, p.2 = 0 → ∀ c ∈ p.1, c = 0

instance (μ : List (List ℚ)) (τ : List ℚ) : Decidable (zeroMuOkP μ τ) :=
  inferInstanceAs (Decidable (∀ p ∈ μ.zip τ, p.2 = 0 → ∀ c ∈ p.1, c = 0))

theorem length_filterMap_lt {β γ : Type} (f : β → Option γ) :
    ∀ (l : List β) (a : β), a ∈ l → f a = none →
      (l.filterMap f).length < l.length := by
  intro l
  induction l with
  | nil => intro a ha; simp at ha
  | cons b t ih =>
    intro a ha hf
    rcases List.mem_cons.mp ha with rfl | hat
    · rw [List.filterMap_cons, hf]
      have := List.length_filterMap_le f t
      simp
      omega
    · rw [List.filterMap_cons]
      rcases hb : f b with _ | c
      · have := ih a hat hf
        simp
        omega
      · have := ih a hat hf
        simp
        omega

/-- When some `tau` entry is exactly 0, the selected subcollection is
strictly smaller. -/
theorem select_length_lt {E : List (List (Vector α))} {τ : List ℚ}
    (hτ : τ.length = E.length) (h : ∃ i : Fin τ.length, τ.get i = 0) :
    (select E τ).length < E.length := by
  obtain ⟨⟨i, hilt⟩, hi⟩ := h
  have hiE : i < E.length := by omega
  have hzlen : (E.zip τ).length = E.length := by
    rw [List.length_zip, hτ, min_self]
  have hizip : i < (E.zip τ).length := by omega
  have hmem : (E.zip τ)[i] ∈ E.zip τ := List.getElem_mem _
  have hval : ((E.zip τ)[i]).2 = 0 := by
    rw [List.getElem_zip]
    rw [List.get_eq_getElem] at hi
    exact hi
  have hnone : (fun p : List (Vector α) × ℚ => if p.2 = 1 then some p.1 else none)
      ((E.zip τ)[i]) = none := by
    simp only [hval]
    norm_num
  have := length_filterMap_lt
    (fun p : List (Vector α) × ℚ => if p.2 = 1 then some p.1 else none)
    (E.zip τ) _ hmem hnone
  rw [hzlen] at this
  exact this

/-- One run of the CONEstrip loop of `mathprog.feasible` (lines 48-96),
counted in loop passes, with the solver abstracted by `oracle`.  Returns
the final collection paired with the trace of the collections the solver
was consulted on; `none` means the fuel ran out (from `E.length + 1`
passes on this never happens, `feasRunF_isSome`).  Following the source:
an empty collection returns the empty set (the `while`/`else` branch); a
non-OPTIMAL status returns the empty set; otherwise the `tau == 1` cones
are selected and, if every `tau == 0` cone carries only zero multipliers,
the selection is returned, else the loop continues on the selection. -/
def feasRunF (oracle : ∀ E : List (List (Vector α)), FeasRes E) :
    ℕ → List (List (Vector α)) →
      Option (List (List (Vector α)) × List (List (List (Vector α))))
  | 0, _ => none
  | _ + 1, [] => some ([], [])
  | n + 1, A :: E₁ =>
    match oracle (A :: E₁) with
    | .nonOpt => some ([], [A :: E₁])
    | .opt μ τ _ _ =>
      if zeroMuOkP μ τ then some (select (A :: E₁) τ, [A :: E₁])
      else (feasRunF oracle n (select (A :: E₁) τ)).map
        (fun r => (r.1, (A :: E₁) :: r.2))

theorem feasRunF_isSome (oracle : ∀ E : List (List (Vector α)), FeasRes E) :
    ∀ (n : ℕ) (E : List (List (Vector α))), E.length < n →
      (feasRunF oracle n E).isSome := by
  intro n
  induction n with
  | zero => intro E h; omega
  | succ n ih =>
    intro E h
    match E with
    | [] => simp [feasRunF]
    | A :: E₁ =>
      rw [feasRunF]
      rcases horacle : oracle (A :: E₁) with _ | ⟨μ, τ, hμ, hτ⟩
      · rfl
      · show (if zeroMuOkP μ τ then some (select (A :: E₁) τ, [A :: E₁])
            else (feasRunF oracle n (select (A :: E₁) τ)).map
              (fun r => (r.1, (A :: E₁) :: r.2))).isSome = true
        by_cases hz : zeroMuOkP μ τ
        · rw [if_pos hz]
          rfl
        · rw [if_neg hz]
          have hlen : (select (A :: E₁) τ).length < n := by
            unfold zeroMuOkP at hz
            push_neg at hz
            obtain ⟨p, hp, hp0, c, hc, hcne⟩ := hz
            have hpτ : p.2 ∈ τ := (List.of_mem_zip hp).2
            obtain ⟨i, hieq⟩ := List.mem_iff_get.mp hpτ
            have hlt := select_length_lt (E := A :: E₁) hτ
              ⟨i, by rw [hieq]; exact hp0⟩
            omega
          have hrec := ih (select (A :: E₁) τ) hlen
          rcases hsome : feasRunF oracle n (select (A :: E₁) τ) with _ | r
          · rw [hsome] at hrec
            simp at hrec
          · rfl

/-- Whether two vectors are equal as murasyp `Vector` objects (mapping
equality: same stored labels with the same stored values). -/
def vecEqB (v w : Vector α) : Bool :=
  decide (v.dom = w.dom) && decide (∀ x ∈ v.dom, v.val x = w.val x)

/-- Cone (`Polytope`) equality, used by the final `E - {Polytope([-h])}`:
both generator lists match pairwise. -/
def coneEqB (A B : List (Vector α)) : Bool :=
  decide (A.length = B.length) && (A.zip B).all (fun p => vecEqB p.1 p.2)

/-- The reference-vector preprocessing of `feasible` (lines 40-44):
the vector is used only when the mapping exists and at least one of its
stored entries is zero; otherwise `h = None`. -/
def hOf (mapping : Option (Vector α)) : Option (Vector α) :=
  match mapping with
  | none => none
  | some m => if ∀ x ∈ m.dom, m.val x ≠ 0 then none else some m

/-- `mathprog.feasible(data, mapping)`, paired with the trace of solver
consultations.  When the reference vector is active, the singleton cone
`{-h}` is added to the collection (`D.add(Polytope({-h}))`) and stripped
from the result; with no active reference vector an empty `data` makes
`frozenset.union(*())` raise a `TypeError`, modelled as the error value.
The fuel `length + 1` always suffices (`feasRunF_isSome`), so the `none`
fallback branches are unreachable. -/
def feasibleT (oracle : ∀ E : List (List (Vector α)), FeasRes E)
    (data : List (List (Vector α))) (mapping : Option (Vector α)) :
    Except Unit (List (List (Vector α))) × List (List (List (Vector α))) :=
  match hOf mapping with
  | none =>
    match data with
    | [] => (.error (), [])
    | A :: E₁ =>
      match feasRunF oracle ((A :: E₁).length + 1) (A :: E₁) with
      | some r => (.ok r.1, r.2)
      | none => (.error (), [])
  | some h =>
    match feasRunF oracle ((data ++ [[h.neg]]).length + 1) (data ++ [[h.neg]]) with
    | some r => (.ok (r.1.filter (fun A => !(coneEqB A [h.neg]))), r.2)
    | none => (.error (), [])

/-- `mathprog.feasible(data, mapping)`: the returned collection, or the
error outcome on an empty cone collection. -/
def feasible (oracle : ∀ E : List (List (Vector α)), FeasRes E)
    (data : List (List (Vector α))) (mapping : Option (Vector α)) :
    Except Unit (List (List (Vector α))) :=
  (feasibleT oracle data mapping).1

theorem feasRunF_nonOpt (oracle : ∀ E : List (List (Vector α)), FeasRes E) :
    ∀ (n : ℕ) (E : List (List (Vector α))) res tr,
      feasRunF oracle n E = some (res, tr) →
      (∃ C ∈ tr, oracle C = FeasRes.nonOpt) → res = [] := by
  intro n
  induction n with
  | zero =>
    intro E res tr h
    simp [feasRunF] at h
  | succ n ih =>
    intro E res tr h hC
    match E with
    | [] =>
      simp [feasRunF] at h
      obtain ⟨h1, h2⟩ := h
      subst h2
      obtain ⟨C, hmem, _⟩ := hC
      simp at hmem
    | A :: E₁ =>
      rw [feasRunF] at h
      rcases horacle : oracle (A :: E₁) with _ | ⟨μ, τ, hμ, hτ⟩
      · rw [horacle] at h
        have h' : (some ([], [A :: E₁]) :
            Option (List (List (Vector α)) × List (List (List (Vector α))))) =
            some (res, tr) := h
        simp at h'
        exact h'.1
      · rw [horacle] at h
        have h' : (if zeroMuOkP μ τ then some (select (A :: E₁) τ, [A :: E₁])
            else (feasRunF oracle n (select (A :: E₁) τ)).map
              (fun r => (r.1, (A :: E₁) :: r.2))) = some (res, tr) := h
        clear h
        by_cases hz : zeroMuOkP μ τ
        · rw [if_pos hz] at h'
          simp at h'
          obtain ⟨C, hmem, hno⟩ := hC
          rw [← h'.2] at hmem
          simp at hmem
          subst hmem
          rw [horacle] at hno
          exact absurd hno (by simp)
        · rw [if_neg hz] at h'
          rcases hrec : feasRunF oracle n (select (A :: E₁) τ) with _ | r
          · rw [hrec] at h'
            simp at h'
          · rw [hrec] at h'
            simp at h'
            obtain ⟨hres, htr⟩ := h'
            obtain ⟨C, hmem, hno⟩ := hC
            rw [← htr] at hmem
            rcases List.mem_cons.mp hmem with rfl | hmem'
            · rw [horacle] at hno
              exact absurd hno (by simp)
            · rw [← hres]
              exact ih (select (A :: E₁) τ) r.1 r.2 (by rw [hrec]) ⟨C, hmem', hno⟩

theorem feasibleT_none_nil (oracle : ∀ E : List (List (Vector α)), FeasRes E)
    (mapping : Option (Vector α)) (hm : hOf mapping = none) :
    feasibleT oracle [] mapping = (.error (), []) := by
  unfold feasibleT
  rw [hm]

theorem feasibleT_none_cons (oracle : ∀ E : List (List (Vector α)), FeasRes E)
    (A : List (Vector α)) (E₁ : List (List (Vector α)))
    (mapping : Option (Vector α)) (hm : hOf mapping = none) :
    feasibleT oracle (A :: E₁) mapping =
      match feasRunF oracle ((A :: E₁).length + 1) (A :: E₁) with
      | some r => (.ok r.1, r.2)
      | none => (.error (), []) := by
  unfold feasibleT
  rw [hm]

theorem feasibleT_some (oracle : ∀ E : List (List (Vector α)), FeasRes E)
    (data : List (List (Vector α))) (mapping : Option (Vector α))
    (hv : Vector α) (hm : hOf mapping = some hv) :
    feasibleT oracle data mapping =
      match feasRunF oracle ((data ++ [[hv.neg]]).length + 1) (data ++ [[hv.neg]]) with
      | some r => (.ok (r.1.filter (fun A => !(coneEqB A [hv.neg]))), r.2)
      | none => (.error (), []) := by
  unfold feasibleT
  rw [hm]

/-- Claim C4: whenever an internal LP solved during `feasible(D, h)`
returns a status other than `OPTIMAL`, `feasible` returns the empty set
(meaning infeasible) instead of raising an exception — for every solver
behaviour, every cone collection and every reference mapping. -/
theorem C4_feasible_nonopt_empty (oracle : ∀ E : List (List (Vector α)), FeasRes E)
    (data : List (List (Vector α))) (mapping : Option (Vector α))
    (h : ∃ C ∈ (feasibleT oracle data mapping).2, oracle C = FeasRes.nonOpt) :
    feasible oracle data mapping = .ok [] := by
  unfold feasible
  rcases hm : hOf mapping with _ | hv
  · match data with
    | [] =>
      rw [feasibleT_none_nil oracle mapping hm] at h
      simp at h
    | A :: E₁ =>
      rw [feasibleT_none_cons oracle A E₁ mapping hm] at h ⊢
      rcases hrun : feasRunF oracle ((A :: E₁).length + 1) (A :: E₁) with _ | r
      · rw [hrun] at h
        simp at h
      · rw [hrun] at h
        simp at h ⊢
        obtain ⟨C, hmem, hno⟩ := h
        exact feasRunF_nonOpt oracle _ _ r.1 r.2 (by rw [hrun]) ⟨C, hmem, hno⟩
  · rw [feasibleT_some oracle data mapping hv hm] at h ⊢
    rcases hrun : feasRunF oracle ((data ++ [[hv.neg]]).length + 1)
        (data ++ [[hv.neg]]) with _ | r
    · rw [hrun] at h
      simp at h
    · rw [hrun] at h
      simp at h ⊢
      obtain ⟨C, hmem, hno⟩ := h
      have hr1 : r.1 = [] :=
        feasRunF_nonOpt oracle _ _ r.1 r.2 (by rw [hrun]) ⟨C, hmem, hno⟩
      rw [hr1]
      simp

/-- A constantly non-OPTIMAL solver, used in the examples. -/
def exOracleNonOpt : ∀ E : List (List (Vector ℕ)), FeasRes E := fun _ => FeasRes.nonOpt

/-- A one-cone collection `{Polytope({v})}` with `v = {0: 1}`. -/
def exData : List (List (Vector ℕ)) := [[⟨{0}, fun _ => 1⟩]]

/-- Witness for `C4_feasible_nonopt_empty`: a constantly non-OPTIMAL
solver makes `feasible` return the empty collection on a concrete input. -/
theorem C4_feasible_nonopt_empty_witness :
    feasible exOracleNonOpt exData none = .ok [] :=
  C4_feasible_nonopt_empty exOracleNonOpt exData none
    ⟨exData, List.mem_singleton_self exData, rfl⟩

/-- Claim C9: `feasible(data, mapping)` activates the reference-vector
constraint only when the mapping has at least one stored entry equal to
zero; when the mapping is `None`, empty, or all of its stored values are
non-zero, `feasible(data, mapping)` is exactly `feasible(data, None)`
(the guard `mapping == None or all(mapping[x] != 0 for x in mapping)`
sets `h = None`, after which the reference vector plays no role). -/
theorem C9_feasible_ignores_nonzero_mapping
    (oracle : ∀ E : List (List (Vector α)), FeasRes E)
    (data : List (List (Vector α))) (mapping : Option (Vector α))
    (h : mapping = none ∨ ∃ m, mapping = some m ∧ ∀ x ∈ m.dom, m.val x ≠ 0) :
    feasible oracle data mapping = feasible oracle data none := by
  rcases h with rfl | ⟨m, rfl, hm⟩
  · rfl
  · unfold feasible
    have h1 : hOf (some m) = none := by
      show (if ∀ x ∈ m.dom, m.val x ≠ 0 then none else some m) = none
      rw [if_pos hm]
    unfold feasibleT
    rw [h1]
    rfl

/-- The mapping `{0: 1}`, which has no stored zero entry. -/
def exMapping : Vector ℕ := ⟨{0}, fun _ => 1⟩

/-- Witness for `C9_feasible_ignores_nonzero_mapping` at a concrete
all-non-zero mapping. -/
theorem C9_feasible_ignores_nonzero_mapping_witness :
    feasible exOracleNonOpt exData (some exMapping) =
      feasible exOracleNonOpt exData none :=
  C9_feasible_ignores_nonzero_mapping exOracleNonOpt exData (some exMapping)
    (Or.inr ⟨exMapping, rfl, by intro x hx; norm_num [exMapping]⟩)

/-! ## The CONEstrip LP of one iteration, and idempotence of `feasible` -/

/-- The value at `x` of the full `mu`-weighted combination of the
generators of a collection, grouped by cone. -/
def comboAll (μ : List (List ℚ)) (E : List (List (Vector α))) (x : α) : ℚ :=
  (List.zipWith (fun m A => lincomb m A x) μ E).sum

theorem comboAll_cons (m : List ℚ) (μ : List (List ℚ)) (A : List (Vector α))
    (E : List (List (Vector α))) (x : α) :
    comboAll (m :: μ) (A :: E) x = lincomb m A x + comboAll μ E x := by
  simp [comboAll]

/-- Feasibility for the CONEstrip LP of one iteration on the collection
`E`, with no reference vector (`mathprog.feasible` lines 52-66): solution
shapes, `mu >= 0`, `0 <= tau <= 1`, `sum tau >= 1`, the per-coordinate
equality cone-constraints (stated at every label — outside the
collection's domains every generator reads zero, so this is equivalent to
the rows over `coordinates`), and `tau_A <= mu_{A,v}` for every generator
`v` of every cone `A`. -/
def LPfeasible (E : List (List (Vector α))) (μ : List (List ℚ)) (τ : List ℚ) : Prop :=
  List.Forall₂ (fun m A => m.length = A.length) μ E ∧
  τ.length = E.length ∧
  (∀ m ∈ μ, ∀ c ∈ m, 0 ≤ c) ∧
  (∀ p ∈ τ, 0 ≤ p ∧ p ≤ 1) ∧
  1 ≤ τ.sum ∧
  (∀ x : α, comboAll μ E x = 0) ∧
  (∀ p ∈ τ.zip μ, ∀ c ∈ p.2, p.1 ≤ c)

/-- The solver answered this consultation correctly (spec section 6): an
`opt` answer is a feasible solution of the iteration's LP whose objective
`sum tau` is maximal. -/
def SoundAt (oracle : ∀ E : List (List (Vector α)), FeasRes E)
    (E : List (List (Vector α))) : Prop :=
  ∀ μ τ hμ hτ, oracle E = FeasRes.opt μ τ hμ hτ →
    LPfeasible E μ τ ∧ ∀ μ' τ', LPfeasible E μ' τ' → τ'.sum ≤ τ.sum

/-- The solver does not report a non-OPTIMAL status on this consultation
when the LP is feasible (it is always bounded, the objective being at
most the number of cones). -/
def CompleteAt (oracle : ∀ E : List (List (Vector α)), FeasRes E)
    (E : List (List (Vector α))) : Prop :=
  (∃ μ τ, LPfeasible E μ τ) → oracle E ≠ FeasRes.nonOpt

theorem lincomb_zero {m : List ℚ} (h : ∀ c ∈ m, c = 0) (A : List (Vector α)) (x : α) :
    lincomb m A x = 0 := by
  induction m generalizing A with
  | nil => simp [lincomb]
  | cons c t ih =>
    cases A with
    | nil => simp [lincomb]
    | cons v tl =>
      rw [lincomb_cons, h c (by simp), ih (fun c hc => h c (by simp [hc])) tl]
      ring

theorem comboAll_map_mul (a : ℚ) (μ : List (List ℚ)) (E : List (List (Vector α))) (x : α) :
    comboAll (μ.map (fun m => m.map (fun c => a * c))) E x = a * comboAll μ E x := by
  induction μ generalizing E with
  | nil => simp [comboAll]
  | cons m t ih =>
    cases E with
    | nil => simp [comboAll]
    | cons A tl =>
      rw [List.map_cons, comboAll_cons, comboAll_cons, lincomb_map_mul, ih tl]
      ring

theorem sum_le_length (l : List ℚ) (h : ∀ p ∈ l, p ≤ 1) :
    l.sum ≤ (l.length : ℚ) := by
  induction l with
  | nil => simp
  | cons q t ih =>
    have h1 := h q (by simp)
    have h2 := ih (fun p hp => h p (by simp [hp]))
    simp only [List.sum_cons, List.length_cons]
    push_cast
    linarith

theorem all_one_of_le_sum (l : List ℚ) (h1 : ∀ p ∈ l, p ≤ 1)
    (h2 : (l.length : ℚ) ≤ l.sum) : ∀ p ∈ l, p = 1 := by
  induction l with
  | nil => simp
  | cons q t ih =>
    have hq1 : q ≤ 1 := h1 q (by simp)
    have htle : t.sum ≤ (t.length : ℚ) :=
      sum_le_length t (fun p hp => h1 p (by simp [hp]))
    simp only [List.sum_cons, List.length_cons] at h2
    push_cast at h2
    intro p hp
    rcases List.mem_cons.mp hp with rfl | hp'
    · linarith
    · exact ih (fun p hp => h1 p (by simp [hp])) (by linarith) p hp'

theorem sum_replicate_one : ∀ n : ℕ, (List.replicate n (1 : ℚ)).sum = n := by
  intro n
  induction n with
  | zero => simp
  | succ n ih =>
    rw [List.replicate_succ, List.sum_cons, ih]
    push_cast
    ring

/-- The `mu` blocks of the cones selected by `tau == 1`, positionally
matching `select`. -/
def selectMu (μ : List (List ℚ)) (τ : List ℚ) : List (List ℚ) :=
  (μ.zip τ).filterMap (fun p => if p.2 = 1 then some p.1 else none)

theorem selectMu_cons (m : List ℚ) (μ : List (List ℚ)) (t : ℚ) (τ : List ℚ) :
    selectMu (m :: μ) (t :: τ) =
      if t = 1 then m :: selectMu μ τ else selectMu μ τ := by
  unfold selectMu
  rw [List.zip_cons_cons, List.filterMap_cons]
  by_cases h : t = 1
  · simp [h]
  · simp [h]

theorem select_cons (A : List (Vector α)) (E : List (List (Vector α)))
    (t : ℚ) (τ : List ℚ) :
    select (A :: E) (t :: τ) =
      if t = 1 then A :: select E τ else select E τ := by
  unfold select
  rw [List.zip_cons_cons, List.filterMap_cons]
  by_cases h : t = 1
  · simp [h]
  · simp [h]

theorem select_forall₂ :
    ∀ {μ : List (List ℚ)} {E : List (List (Vector α))} (τ : List ℚ),
      List.Forall₂ (fun m A => m.length = A.length) μ E →
      List.Forall₂ (fun m A => m.length = A.length) (selectMu μ τ) (select E τ) := by
  intro μ
  induction μ with
  | nil =>
    intro E τ h
    cases h
    simp [selectMu, select]
  | cons m μt ih =>
    intro E τ h
    cases h with
    | cons hlen htail =>
      cases τ with
      | nil => simp [selectMu, select]
      | cons t τt =>
        rw [selectMu_cons, select_cons]
        by_cases ht : t = 1
        · rw [if_pos ht, if_pos ht]
          exact List.Forall₂.cons hlen (ih τt htail)
        · rw [if_neg ht, if_neg ht]
          exact ih τt htail

theorem selectMu_mem {μ : List (List ℚ)} {τ : List ℚ} {m : List ℚ}
    (h : m ∈ selectMu μ τ) : (m, (1 : ℚ)) ∈ μ.zip τ := by
  unfold selectMu at h
  rw [List.mem_filterMap] at h
  obtain ⟨p, hp, hfp⟩ := h
  by_cases h1 : p.2 = 1
  · rw [if_pos h1] at hfp
    have hm : p.1 = m := Option.some_inj.mp hfp
    have : p = (m, (1 : ℚ)) := by
      rw [← hm, ← h1]
    rwa [this] at hp
  · rw [if_neg h1] at hfp
    exact absurd hfp (by simp)

theorem select_all_one :
    ∀ (E : List (List (Vector α))) (τ : List ℚ), τ.length = E.length →
      (∀ p ∈ τ, p = 1) → select E τ = E := by
  intro E
  induction E with
  | nil =>
    intro τ hlen _
    have : τ = [] := List.length_eq_zero.mp (by simpa using hlen)
    simp [this, select]
  | cons A Et ih =>
    intro τ hlen hone
    cases τ with
    | nil => simp at hlen
    | cons t τt =>
      rw [select_cons, if_pos (hone t (by simp))]
      rw [ih τt (by simpa using hlen) (fun p hp => hone p (by simp [hp]))]

theorem comboAll_select :
    ∀ (μ : List (List ℚ)) (τ : List ℚ) (E : List (List (Vector α))) (x : α),
      μ.length = τ.length → τ.length = E.length →
      (∀ p ∈ τ, p = 0 ∨ p = 1) → zeroMuOkP μ τ →
      comboAll (selectMu μ τ) (select E τ) x = comboAll μ E x := by
  intro μ
  induction μ with
  | nil =>
    intro τ E x h1 h2 _ _
    have hτ : τ = [] := List.length_eq_zero.mp (by simpa using h1.symm)
    subst hτ
    have hE : E = [] := List.length_eq_zero.mp (by simpa using h2.symm)
    subst hE
    rfl
  | cons m μt ih =>
    intro τ E x h1 h2 hint hzok
    cases τ with
    | nil => simp at h1
    | cons t τt =>
      cases E with
      | nil => simp at h2
      | cons A Et =>
        have htail : comboAll (selectMu μt τt) (select Et τt) x =
            comboAll μt Et x :=
          ih τt Et x (by simpa using h1) (by simpa using h2)
            (fun p hp => hint p (by simp [hp]))
            (fun p hp hp0 => hzok p (by rw [List.zip_cons_cons]; simp [hp]) hp0)
        rw [selectMu_cons, select_cons]
        rcases hint t (by simp) with ht | ht
        · rw [if_neg (by rw [ht]; norm_num), if_neg (by rw [ht]; norm_num)]
          have hm0 : ∀ c ∈ m, c = 0 := by
            intro c hc
            exact hzok (m, t) (by rw [List.zip_cons_cons]; simp) ht c hc
          rw [htail, comboAll_cons, lincomb_zero hm0 A x]
          ring
        · rw [if_pos ht, if_pos ht, comboAll_cons, comboAll_cons, htail]

theorem feasRunF_one_step (oracle : ∀ E : List (List (Vector α)), FeasRes E)
    (A : List (Vector α)) (E₁ : List (List (Vector α))) (n : ℕ)
    (μ : List (List ℚ)) (τ : List ℚ) (hμ : _) (hτ : _)
    (hor : oracle (A :: E₁) = FeasRes.opt μ τ hμ hτ) (hz : zeroMuOkP μ τ) :
    feasRunF oracle (n + 1) (A :: E₁) = some (select (A :: E₁) τ, [A :: E₁]) := by
  rw [feasRunF, hor]
  show (if zeroMuOkP μ τ then some (select (A :: E₁) τ, [A :: E₁])
      else (feasRunF oracle n (select (A :: E₁) τ)).map
        (fun r => (r.1, (A :: E₁) :: r.2))) = _
  rw [if_pos hz]

theorem feasRunF_terminal (oracle : ∀ E : List (List (Vector α)), FeasRes E) :
    ∀ (n : ℕ) (E₀ : List (List (Vector α))) res tr,
      feasRunF oracle n E₀ = some (res, tr) → res ≠ [] →
      ∃ (C : List (List (Vector α))) (μ : List (List ℚ)) (τ : List ℚ)
        (hμ : List.Forall₂ (fun m A => m.length = A.length) μ C)
        (hτ : τ.length = C.length), C ∈ tr ∧
        oracle C = FeasRes.opt μ τ hμ hτ ∧ zeroMuOkP μ τ ∧ res = select C τ := by
  intro n
  induction n with
  | zero =>
    intro E₀ res tr h
    simp [feasRunF] at h
  | succ n ih =>
    intro E₀ res tr h hne
    match E₀ with
    | [] =>
      simp [feasRunF] at h
      exact absurd h.1 hne
    | A :: E₁ =>
      rw [feasRunF] at h
      rcases horacle : oracle (A :: E₁) with _ | ⟨μ, τ, hμ, hτ⟩
      · rw [horacle] at h
        have h' : (some ([], [A :: E₁]) :
            Option (List (List (Vector α)) × List (List (List (Vector α))))) =
            some (res, tr) := h
        simp at h'
        exact absurd h'.1 hne
      · rw [horacle] at h
        have h' : (if zeroMuOkP μ τ then some (select (A :: E₁) τ, [A :: E₁])
            else (feasRunF oracle n (select (A :: E₁) τ)).map
              (fun r => (r.1, (A :: E₁) :: r.2))) = some (res, tr) := h
        clear h
        by_cases hz : zeroMuOkP μ τ
        · rw [if_pos hz] at h'
          simp at h'
          exact ⟨A :: E₁, μ, τ, hμ, hτ, by rw [← h'.2]; simp, horacle, hz, h'.1.symm⟩
        · rw [if_neg hz] at h'
          rcases hrec : feasRunF oracle n (select (A :: E₁) τ) with _ | r
          · rw [hrec] at h'
            simp at h'
          · rw [hrec] at h'
            simp at h'
            obtain ⟨hres, htr⟩ := h'
            obtain ⟨C, μ', τ', hμ', hτ', hmem, hor', hz', hsel⟩ :=
              ih (select (A :: E₁) τ) r.1 r.2 (by rw [hrec]) (by rw [hres]; exact hne)
            exact ⟨C, μ', τ', hμ', hτ', by rw [← htr]; simp [hmem], hor', hz',
              by rw [← hres]; exact hsel⟩

/-- At an optimum of the iteration LP every `tau` entry is 0 or 1: a
fractional entry could be raised by rescaling the (homogeneous) `mu`
block, keeping feasibility and strictly increasing the objective. -/
theorem tau_int {E : List (List (Vector α))} {μ : List (List ℚ)} {τ : List ℚ}
    (hfeas : LPfeasible E μ τ)
    (hopt : ∀ μ' τ', LPfeasible E μ' τ' → τ'.sum ≤ τ.sum) :
    ∀ p ∈ τ, p = 0 ∨ p = 1 := by
  intro p hp
  by_contra hcon
  push_neg at hcon
  obtain ⟨hp0, hp1⟩ := hcon
  obtain ⟨hμE, hτE, hμnn, hτ01, hτsum, heq, hlink⟩ := hfeas
  have hpb := hτ01 p hp
  have hppos : 0 < p := lt_of_le_of_ne hpb.1 (Ne.symm hp0)
  have hplt : p < 1 := lt_of_le_of_ne hpb.2 hp1
  set a := p⁻¹ with ha
  have hapos : 0 < a := inv_pos.mpr hppos
  have hpa : p * a = 1 := mul_inv_cancel₀ (ne_of_gt hppos)
  have ha1 : 1 < a := by
    nlinarith [mul_pos hapos (show (0 : ℚ) < 1 - p by linarith)]
  have hfeas' : LPfeasible E (μ.map (fun m => m.map (fun c => a * c)))
      (τ.map (fun q => min 1 (a * q))) := by
    refine ⟨?_, ?_, ?_, ?_, ?_, ?_, ?_⟩
    · rw [List.forall₂_map_left_iff]
      exact List.Forall₂.imp (fun m A h => by simpa using h) hμE
    · simp [hτE]
    · intro m' hm'
      rw [List.mem_map] at hm'
      obtain ⟨m, hm, rfl⟩ := hm'
      intro c' hc'
      rw [List.mem_map] at hc'
      obtain ⟨c, hc, rfl⟩ := hc'
      exact mul_nonneg (le_of_lt hapos) (hμnn m hm c hc)
    · intro q' hq'
      rw [List.mem_map] at hq'
      obtain ⟨q, hq, rfl⟩ := hq'
      have hqb := hτ01 q hq
      exact ⟨le_min (by norm_num) (mul_nonneg (le_of_lt hapos) hqb.1),
        min_le_left _ _⟩
    · have hge : τ.sum ≤ (τ.map (fun q => min 1 (a * q))).sum := by
        have hι : τ.sum = (τ.map id).sum := by simp
        rw [hι]
        apply List.sum_le_sum
        intro q hq
        have hqb := hτ01 q hq
        exact le_min hqb.2 (le_mul_of_one_le_left hqb.1 (le_of_lt ha1))
      linarith
    · intro x
      rw [comboAll_map_mul, heq x, mul_zero]
    · intro p' hp'
      rw [List.zip_map] at hp'
      rw [List.mem_map] at hp'
      obtain ⟨⟨q, m⟩, hqm, rfl⟩ := hp'
      intro c' hc'
      simp only [Prod.map_mk] at hc' ⊢
      rw [List.mem_map] at hc'
      obtain ⟨c, hc, rfl⟩ := hc'
      calc min 1 (a * q) ≤ a * q := min_le_right _ _
        _ ≤ a * c :=
          mul_le_mul_of_nonneg_left (hlink (q, m) hqm c hc) (le_of_lt hapos)
  have hlt : τ.sum < (τ.map (fun q => min 1 (a * q))).sum := by
    have hι : τ.sum = (τ.map id).sum := by simp
    rw [hι]
    apply List.sum_lt_sum
    · intro q hq
      have hqb := hτ01 q hq
      exact le_min hqb.2 (le_mul_of_one_le_left hqb.1 (le_of_lt ha1))
    · refine ⟨p, hp, ?_⟩
      show id p < min 1 (a * p)
      have hap : a * p = 1 := by rw [mul_comm]; exact hpa
      rw [hap, min_self]
      exact hplt
  have := hopt _ _ hfeas'
  linarith

/-- Claim C8, amended: whenever `feasible(D)` (with no reference vector)
returns a nonempty collection `E`, re-running `feasible` on `E` returns
`E` again — provided the solver answers the consulted LPs correctly
(`SoundAt` on the consulted collections, `CompleteAt` on `E`).  As frozen
for every input the claim fails: when `feasible(D)` is the empty set,
`feasible(feasible(D))` crashes (see the counterexample), so idempotence
only holds for nonempty results. -/
theorem C8_feasible_idempotent (oracle : ∀ E : List (List (Vector α)), FeasRes E)
    (data E : List (List (Vector α)))
    (hrun : feasible oracle data none = .ok E) (hneE : E ≠ [])
    (hs : ∀ C ∈ (feasibleT oracle data none).2, SoundAt oracle C)
    (hsE : SoundAt oracle E) (hcE : CompleteAt oracle E) :
    feasible oracle E none = .ok E := by
  unfold feasible at hrun
  rcases data with _ | ⟨A, E₁⟩
  · rw [feasibleT_none_nil oracle none rfl] at hrun
    simp at hrun
  · rw [feasibleT_none_cons oracle A E₁ none rfl] at hrun hs
    rcases hrunF : feasRunF oracle ((A :: E₁).length + 1) (A :: E₁) with _ | r
    · rw [hrunF] at hrun
      simp at hrun
    · rw [hrunF] at hrun hs
      simp at hrun
      have hs' : ∀ C ∈ r.2, SoundAt oracle C := hs
      obtain ⟨C, μ, τ, hμ, hτ, hCmem, horC, hzok, hsel⟩ :=
        feasRunF_terminal oracle _ _ r.1 r.2 (by rw [hrunF])
          (by rw [hrun]; exact hneE)
      obtain ⟨hfeasC, hoptC⟩ := hs' C hCmem μ τ hμ hτ horC
      have hint : ∀ p ∈ τ, p = 0 ∨ p = 1 := tau_int hfeasC hoptC
      obtain ⟨hμC, hτC, hμnn, hτ01, hτsum, heqC, hlinkC⟩ := hfeasC
      have hE : E = select C τ := by rw [← hrun, hsel]
      have hμτlen : μ.length = τ.length := by
        have := List.Forall₂.length_eq hμC
        omega
      have hfeasE : LPfeasible E (selectMu μ τ) (List.replicate E.length (1 : ℚ)) := by
        refine ⟨?_, ?_, ?_, ?_, ?_, ?_, ?_⟩
        · rw [hE]
          exact select_forall₂ τ hμC
        · simp
        · intro m hm
          have hmem := selectMu_mem hm
          exact hμnn m (List.of_mem_zip hmem).1
        · intro p hp
          rw [List.eq_of_mem_replicate hp]
          norm_num
        · rw [sum_replicate_one]
          have h1 : 1 ≤ E.length := List.length_pos.mpr hneE
          exact_mod_cast h1
        · intro x
          rw [hE, comboAll_select μ τ C x hμτlen hτC hint hzok]
          exact heqC x
        · intro p hp
          have hp1 : p.1 = 1 := List.eq_of_mem_replicate (List.of_mem_zip hp).1
          intro c hc
          have hmem := selectMu_mem (List.of_mem_zip hp).2
          have hswap : ((1 : ℚ), p.2) ∈ τ.zip μ := by
            rw [← List.zip_swap μ τ]
            exact List.mem_map.mpr ⟨(p.2, 1), hmem, rfl⟩
          rw [hp1]
          exact hlinkC (1, p.2) hswap c hc
      have hor := hcE ⟨_, _, hfeasE⟩
      rcases horE : oracle E with _ | ⟨μ₂, τ₂, hμ₂, hτ₂⟩
      · exact absurd horE hor
      · obtain ⟨hfeas₂, hopt₂⟩ := hsE μ₂ τ₂ hμ₂ hτ₂ horE
        have hge : (E.length : ℚ) ≤ τ₂.sum := by
          have h1 := hopt₂ _ _ hfeasE
          rw [sum_replicate_one] at h1
          exact h1
        have hall1 : ∀ p ∈ τ₂, p = 1 := by
          apply all_one_of_le_sum
          · exact fun p hp => (hfeas₂.2.2.2.1 p hp).2
          · rw [hτ₂]
            exact hge
        have hzok₂ : zeroMuOkP μ₂ τ₂ := by
          intro p hp hp0
          have hpτ : p.2 ∈ τ₂ := (List.of_mem_zip hp).2
          rw [hall1 p.2 hpτ] at hp0
          norm_num at hp0
        rcases E with _ | ⟨A₂, E₂⟩
        · exact absurd rfl hneE
        · unfold feasible
          rw [feasibleT_none_cons oracle A₂ E₂ none rfl]
          rw [feasRunF_one_step oracle A₂ E₂ (A₂ :: E₂).length μ₂ τ₂ hμ₂ hτ₂
            horE hzok₂]
          rw [select_all_one (A₂ :: E₂) τ₂ hτ₂ hall1]

/-- Claim C8, counterexample.  On the one-cone collection
`D = {Polytope({v})}` with `v = {0: 1}` the iteration LP is infeasible
(any `mu` must make the combination vanish at `0`, forcing `mu = 0`, yet
`tau <= mu` and `sum tau >= 1`), so a correct solver answers a
non-OPTIMAL status and `feasible(D)` returns the empty set; calling
`feasible` on that empty result then crashes
(`frozenset.union(*())` raises a `TypeError`), so
`feasible(feasible(D)) == feasible(D)` fails as stated for every input. -/
theorem C8_feasible_idempotent_counterexample :
    feasible exOracleNonOpt exData none = .ok [] ∧
    feasible exOracleNonOpt ([] : List (List (Vector ℕ))) none = .error () ∧
    ¬ ∃ (μ : List (List ℚ)) (τ : List ℚ), LPfeasible exData μ τ := by
  refine ⟨rfl, rfl, ?_⟩
  rintro ⟨μ, τ, hμE, hτE, hμnn, hτ01, hτsum, heq, hlink⟩
  rcases μ with _ | ⟨m, μt⟩
  · cases hμE
  rcases hμE with _ | ⟨hm1, htl⟩
  cases htl
  rcases τ with _ | ⟨t, τt⟩
  · simp [exData] at hτE
  rcases τt with _ | ⟨t2, τt⟩
  · rcases m with _ | ⟨c, mt⟩
    · simp [exData] at hm1
    rcases mt with _ | ⟨c2, mt⟩
    · have h0 := heq 0
      rw [show exData = [[(⟨{0}, fun _ => 1⟩ : Vector ℕ)]] from rfl] at h0
      rw [comboAll_cons, lincomb_cons] at h0
      have hget : (⟨{0}, fun _ => 1⟩ : Vector ℕ).get 0 = 1 := by
        simp [Vector.get]
      rw [hget] at h0
      simp [comboAll, lincomb] at h0
      have hsum : 1 ≤ t := by simpa using hτsum
      have hct : t ≤ c := by
        have hmem : ((t : ℚ), [c]) ∈ [t].zip [[c]] := by simp
        exact hlink (t, [c]) hmem c (by simp)
      linarith
    · simp [exData] at hm1
  · simp [exData] at hτE

/-- The collection `{Polytope({v, -v})}` with `v = {0: 1}`: its iteration
LP is feasible with all multipliers 1. -/
def exDataPair : List (List (Vector ℕ)) :=
  [[⟨{0}, fun _ => 1⟩, ⟨{0}, fun _ => -1⟩]]

theorem forall₂_ones (E : List (List (Vector ℕ))) :
    List.Forall₂ (fun (m : List ℚ) (A : List (Vector ℕ)) => m.length = A.length)
      (E.map (fun A => A.map (fun _ => (1 : ℚ)))) E := by
  induction E with
  | nil => exact List.Forall₂.nil
  | cons A T ih => exact List.Forall₂.cons (by simp) ih

/-- A solver stub answering the all-ones solution on every consultation
(which is the correct optimum on the consultations of the witness run). -/
def exOracleOnes : ∀ E : List (List (Vector ℕ)), FeasRes E := fun E =>
  FeasRes.opt (E.map (fun A => A.map (fun _ => (1 : ℚ))))
    (E.map (fun _ => (1 : ℚ))) (forall₂_ones E) (by simp)

theorem soundAt_pair : SoundAt exOracleOnes exDataPair := by
  intro μ τ hμ hτ hor
  have hred : exOracleOnes exDataPair =
      FeasRes.opt [[1, 1]] [1] (forall₂_ones exDataPair) rfl := rfl
  rw [hred] at hor
  injection hor with hμeq hτeq
  subst hμeq
  subst hτeq
  constructor
  · refine ⟨?_, rfl, ?_, ?_, by simp, ?_, ?_⟩
    · exact List.Forall₂.cons (by simp [exDataPair]) List.Forall₂.nil
    · intro m hm
      simp at hm
      subst hm
      intro c hc
      simp at hc
      rcases hc with rfl | rfl <;> norm_num
    · intro p hp
      simp at hp
      subst hp
      norm_num
    · intro x
      show comboAll [[1, 1]] exDataPair x = 0
      rw [show exDataPair = [[(⟨{0}, fun _ => 1⟩ : Vector ℕ),
        (⟨{0}, fun _ => -1⟩ : Vector ℕ)]] from rfl]
      rw [comboAll_cons, lincomb_cons, lincomb_cons]
      by_cases hx : x ∈ ({0} : Finset ℕ) <;>
        simp [comboAll, lincomb, Vector.get, hx]
    · intro p hp
      simp at hp
      subst hp
      intro c hc
      simp at hc
      rcases hc with rfl | rfl <;> norm_num
  · intro μ' τ' hfeas'
    obtain ⟨_, hτlen', _, hτ01', _, _, _⟩ := hfeas'
    rcases τ' with _ | ⟨t, τt⟩
    · simp [exDataPair] at hτlen'
    rcases τt with _ | ⟨t2, τt⟩
    · have h1 := (hτ01' t (by simp)).2
      simp
      linarith
    · simp [exDataPair] at hτlen'

theorem completeAt_pair : CompleteAt exOracleOnes exDataPair := by
  intro _ h
  have hred : exOracleOnes exDataPair =
      FeasRes.opt [[1, 1]] [1] (forall₂_ones exDataPair) rfl := rfl
  rw [hred] at h
  exact FeasRes.noConfusion h

/-- Witness for `C8_feasible_idempotent`: the collection
`{Polytope({v, -v})}` survives `feasible` under the all-ones solver, and
a second run returns it unchanged. -/
theorem C8_feasible_idempotent_witness :
    feasible exOracleOnes exDataPair none = .ok exDataPair := by
  have hrun : feasible exOracleOnes exDataPair none = .ok exDataPair := rfl
  refine C8_feasible_idempotent exOracleOnes exDataPair exDataPair hrun
    (by simp [exDataPair]) ?_ soundAt_pair completeAt_pair
  intro C hC
  have htr : (feasibleT exOracleOnes exDataPair none).2 = [exDataPair] := rfl
  rw [htr] at hC
  simp at hC
  subst hC
  exact soundAt_pair

end Murasyp
